import Mathlib

/-!
Shallow embedding of the LZAV in-memory compression codec (lzav.h, stream
format 1) and proofs about its specification claims.

Conventions of the embedding:
* Bytes are `Nat` values; byte buffers are `List Nat`.  All multi-byte wire
  fields are little-endian, matching the little-endian build of the source.
* C `size_t` arithmetic is `Nat` arithmetic; the single place where a C
  `size_t` subtraction can wrap (the decompressor's `mref1`) and the single
  place where a `uint32_t` subtraction occurs (the compressor's reference
  offset `d`) carry an explicit `% 2^32` / `% 2^64`.
* C `int` state of the compressor (`mavg`, `rndb`) is `Int`; the C right
  shift of a (possibly negative) `int` is modelled as flooring division by a
  power of two, matching the arithmetic shift the source relies on.
* Loops become fuel-indexed structural recursions; every top-level entry
  point passes a fuel that provably dominates the loop's iteration count
  (each iteration advances the cursor by at least one byte).
* A C `memcpy` that intentionally writes more bytes than the `lc`/`cc` count
  before the cursor is advanced by only `lc`/`cc` bytes is modelled exactly
  (the extra bytes land in the buffer and are only overwritten by later
  writes), except in the compressor's literal writer where every overshot
  byte is overwritten before the function returns, and the output is
  therefore modelled as the advanced prefix.
-/

set_option maxRecDepth 100000

namespace LZAV

/-- Reads byte `i` of buffer `l` (0 when out of range; all in-range uses are
bounds-checked by the modelled code itself). -/
def byteAt (l : List Nat) (i : Nat) : Nat := l.getD i 0

/-- Writes byte `v` at position `i` (no-op when out of range). -/
def setByte (l : List Nat) (i : Nat) (v : Nat) : List Nat := l.set i v

/-- Reads `n` consecutive bytes starting at position `i`. -/
def getBytes (l : List Nat) (i : Nat) : Nat → List Nat
  | 0 => []
  | n + 1 => byteAt l i :: getBytes l (i + 1) n

/-- Writes the byte list `vs` starting at position `i`. -/
def setBytes (l : List Nat) (i : Nat) : List Nat → List Nat
  | [] => l
  | v :: vs => setBytes (setByte l i v) (i + 1) vs

/-- The `LZAV_MEMMOVE` macro: `c` bytes are first read into a temporary and
then written, i.e. a fixed-size `memcpy` through a scratch buffer. -/
def moveBytes (l : List Nat) (di si c : Nat) : List Nat :=
  setBytes l di (getBytes l si c)

/-- Byte-wise forward copy inside one buffer: each read sees the writes of
the previous iterations (the decompressor's overlap-tolerant copy loop). -/
def fwdCopy (l : List Nat) (di si : Nat) : Nat → List Nat
  | 0 => l
  | n + 1 => fwdCopy (setByte l di (byteAt l si)) (di + 1) (si + 1) n

/-- Byte-wise copy from a source buffer into the destination buffer (the
decompressor's literal copy loop). -/
def litCopy (src l : List Nat) (di si : Nat) : Nat → List Nat
  | 0 => l
  | n + 1 => litCopy src (setByte l di (byteAt src si)) (di + 1) (si + 1) n

/-- Little-endian 16-bit load. -/
def le16 (l : List Nat) (i : Nat) : Nat := byteAt l i + 256 * byteAt l (i + 1)

/-- Little-endian 32-bit load. -/
def le32 (l : List Nat) (i : Nat) : Nat :=
  byteAt l i + 256 * byteAt l (i + 1) + 65536 * byteAt l (i + 2) +
    16777216 * byteAt l (i + 3)

/-- Little-endian bytes of a 16-bit store. -/
def le16w (v : Nat) : List Nat := [v % 256, v / 256 % 256]

/-- Little-endian bytes of a 32-bit store. -/
def le32w (v : Nat) : List Nat :=
  [v % 256, v / 256 % 256, v / 65536 % 256, v / 16777216 % 256]

/-- Arithmetic right shift of a C `int`, i.e. flooring division by `2 ^ n`
(the source applies `>>` to the possibly negative running average). -/
def sar (x : Int) (n : Nat) : Int := Int.fdiv x (2 ^ n)

-- Named constants of lzav.h.

def LZAV_E_PARAMS : Int := -1
def LZAV_E_SRCOOB : Int := -2
def LZAV_E_DSTOOB : Int := -3
def LZAV_E_REFOOB : Int := -4
def LZAV_E_DSTLEN : Int := -5
def LZAV_E_UNKFMT : Int := -6

def LZAV_WIN_LEN : Nat := 2 ^ 24
def LZAV_LIT_LEN : Nat := 1 + 15 + 255 + 255
def LZAV_REF_MIN : Nat := 6
def LZAV_REF_LEN : Nat := LZAV_REF_MIN + 15 + 255
def LZAV_LIT_FIN : Nat := 5
def LZAV_FMT_CUR : Nat := 1

/-- Function `lzav_match_len`: the number of continuously-matching leading
bytes between positions `p1` of `a` and `p2` of `b`, at most `ml`.  The
source's word-compare variants are semantically the plain byte loop of its
portable variant, which is embedded here. -/
def lzav_match_len (a b : List Nat) (p1 p2 : Nat) : Nat → Nat
  | 0 => 0
  | ml + 1 =>
    if byteAt a p1 = byteAt b p2 then
      lzav_match_len a b (p1 + 1) (p2 + 1) ml + 1
    else 0

/-- Function `lzav_compress_bound`. -/
def lzav_compress_bound (srcl : Int) : Int :=
  if srcl ≤ 0 then 8 else srcl + srcl * 3 / LZAV_LIT_LEN + 8

/-- The long-literal while-loop of `lzav_write_blk_1`: while `lc >
LZAV_LIT_LEN`, emit the `[0x00, 0xFF, 0xFF]` header followed by
`LZAV_LIT_LEN` literals.  Returns the grown output, the advanced literal
anchor and the remaining literal count.  `fuel` dominates the iteration
count (each round consumes `LZAV_LIT_LEN ≥ 1` from `lc`). -/
def writeLitChunks (src : List Nat) : Nat → List Nat → Nat → Nat →
    List Nat × Nat × Nat
  | 0, out, ipa, lc => (out, ipa, lc)
  | fuel + 1, out, ipa, lc =>
    if lc > LZAV_LIT_LEN then
      writeLitChunks src fuel
        (out ++ 0 :: 255 :: 255 :: (src.drop ipa).take LZAV_LIT_LEN)
        (ipa + LZAV_LIT_LEN) (lc - LZAV_LIT_LEN)
    else (out, ipa, lc)

/-- The literal half of `lzav_write_blk_1`: emits the pending literals,
returning the grown output, the (possibly right-shifted) reference offset
and the new carry-block position.  The source's staggered `memcpy` sizes
(8/16/24 bytes) all overshoot `lc` and are overwritten by the reference
block that always follows, so the literal data is the exact `lc`-byte run. -/
def lzav_write_blk_lit (out : List Nat) (lc d : Nat) (src : List Nat)
    (ipa : Nat) (cbp : Option Nat) : List Nat × Nat × Option Nat :=
  let r := writeLitChunks src lc out ipa lc
  let out := r.1
  let ipa := r.2.1
  let lc := r.2.2
  if lc ≠ 0 then
    let cv := (d % 4) * 64
    let d := d / 4
    let lits := (src.drop ipa).take lc
    if lc < 1 + 15 then
      (out ++ (cv ||| lc) :: lits, d, none)
    else if lc < 1 + 15 + 255 then
      (out ++ cv :: (lc - 1 - 15) :: lits, d, none)
    else
      (out ++ cv :: 255 :: (lc - 1 - 15 - 255) :: lits, d, none)
  else
    match cbp with
    | some cb =>
      (setByte out cb (byteAt out cb ||| d % 4 * 64), d / 4, none)
    | none => (out, d, none)

/-- The reference half of `lzav_write_blk_1`: emits the reference block for
the already-carry-adjusted offset `d`, returning the grown output and the
carry-block position (set exactly when a 24-bit block is written). -/
def lzav_write_blk_ref (out : List Nat) (rc d : Nat) (mref : Nat) :
    List Nat × Option Nat :=
  let rc := rc + 1 - mref
  if d < 2 ^ 10 then
    if rc < 16 then
      (out ++ le16w (d * 64 ||| 1 * 16 ||| rc), none)
    else
      (out ++ (d * 64 ||| 1 * 16) % 256 :: (d / 4) :: (rc - 16) :: [], none)
  else if d < 2 ^ 18 then
    if rc < 16 then
      (out ++ (d * 64 ||| 2 * 16 ||| rc) % 256 :: le16w (d / 4), none)
    else
      (out ++ le32w ((rc - 16) * 2 ^ 24 ||| d * 64 ||| 2 * 16), none)
  else
    let cb := out.length
    if rc < 16 then
      (out ++ le32w (d * 256 ||| 3 * 16 ||| rc), some cb)
    else
      (out ++ 3 * 16 :: le32w ((rc - 16) * 2 ^ 24 ||| d), some cb)

/-- Function `lzav_write_blk_1`: one literal-run + reference pair, with the
offset-carry linkage. -/
def lzav_write_blk_1 (out : List Nat) (lc rc d : Nat) (src : List Nat)
    (ipa : Nat) (cbp : Option Nat) (mref : Nat) : List Nat × Option Nat :=
  let r := lzav_write_blk_lit out lc d src ipa cbp
  lzav_write_blk_ref r.1 rc r.2.1 mref

/-- The while-loop of `lzav_write_fin_1`; `fuel` dominates the iteration
count (each round consumes at least 11 literals). -/
def writeFinLoop (src : List Nat) : Nat → List Nat → Nat → Nat →
    List Nat × Nat × Nat
  | 0, out, ipa, lc => (out, ipa, lc)
  | fuel + 1, out, ipa, lc =>
    if lc > 15 then
      let wc0 := lc - LZAV_LIT_FIN
      let wc := if wc0 < 1 + 15 then wc0
        else if wc0 > LZAV_LIT_LEN then LZAV_LIT_LEN else wc0
      let hdr : List Nat :=
        if wc < 1 + 15 then [wc]
        else if wc < 1 + 15 + 255 then [0, wc - 1 - 15]
        else [0, 255, wc - 1 - 15 - 255]
      writeFinLoop src fuel (out ++ hdr ++ (src.drop ipa).take wc)
        (ipa + wc) (lc - wc)
    else (out, ipa, lc)

/-- Function `lzav_write_fin_1`: the finishing literal block(s). -/
def lzav_write_fin_1 (out : List Nat) (lc : Nat) (src : List Nat)
    (ipa : Nat) : List Nat :=
  let r := writeFinLoop src lc out ipa lc
  r.1 ++ r.2.2 :: (src.drop r.2.1).take r.2.2

/-- One hash-table item: two tuples of (4 initial match bytes, 32-bit source
data offset). -/
structure HTEnt where
  w1 : Nat
  o1 : Nat
  w2 : Nat
  o2 : Nat
deriving DecidableEq, Repr

/-- The hash-table initialization loop: stores the init tuple into every one
of the `htcap` items of the backing memory (whose previous contents `t` are
arbitrary). -/
def htInit (iv : HTEnt) : Nat → Nat → List HTEnt → List HTEnt
  | 0, _, t => t
  | n + 1, i, t => htInit iv n (i + 1) (t.set i iv)

/-- The hash-table capacity sizing loop of `lzav_compress`: starting at 256,
double until 65536 or `htcap * 4 ≥ srcl` (8 iterations always suffice). -/
def htcapLoop (srcl : Nat) : Nat → Nat → Nat
  | 0, c => c
  | n + 1, c =>
    if c ≠ 65536 ∧ c * 4 < srcl then htcapLoop srcl n (c * 2) else c

def lzav_htcap (srcl : Nat) : Nat := htcapLoop srcl 8 256

/-- The hash value of the 6 source bytes at `ip` ("komihash" construct). -/
def lzav_hash (iw1 iw2 : Nat) : Nat :=
  let hm := (0x243F6A88 ^^^ iw1) * (0x85A308D3 ^^^ iw2)
  (hm % 2 ^ 32) ^^^ (hm / 2 ^ 32)

/-- The hash-table lookup/insertion block of the compression loop (lines
722-778 of lzav.h): find `(iw1, iw2)` among the item's two tuples, else
replace the victim tuple with `(iw1, ipo)`.  Returns the found source
offset (`none` on miss) and the updated table. -/
def lzav_ht_find (src : List Nat) (ht : List HTEnt) (idx iw1 iw2 ipo :
    Nat) : Option Nat × List HTEnt :=
  let e := ht.getD idx ⟨0, 0, 0, 0⟩
  if iw1 = e.w1 then
    let wpo := e.o1
    let ww2 := le16 src (wpo + 4)
    if iw2 ≠ ww2 then
      if iw1 ≠ e.w2 then
        (none, ht.set idx ⟨e.w1, e.o1, iw1, ipo⟩)
      else
        let wpo := e.o2
        let ww2 := le16 src (wpo + 4)
        if iw2 ≠ ww2 then
          (none, ht.set idx ⟨iw1, ipo, e.w2, e.o2⟩)
        else (some wpo, ht)
    else (some wpo, ht)
  else
    if iw1 ≠ e.w2 then
      (none, ht.set idx ⟨e.w1, e.o1, iw1, ipo⟩)
    else
      let wpo := e.o2
      let ww2 := le16 src (wpo + 4)
      if iw2 ≠ ww2 then
        (none, ht.set idx ⟨iw1, ipo, e.w2, e.o2⟩)
      else (some wpo, ht)

/-- The adaptive-skip step of the compression loop on a hash miss (lines
780-808 of lzav.h): decay `mavg` and compute the advanced `ip` and the next
PRNG bit. -/
def lzav_skip (ip ipa ipo : Nat) (mavg rndb : Int) : Nat × Int × Int :=
  let mavg := mavg - sar mavg 11
  if mavg < 200 * 2 ^ 15 ∧ ip ≠ ipa then
    let ip := ip + (2 ||| rndb.toNat)
    let rndb := (ipo % 2 : Int)
    let ip := if mavg < 130 * 2 ^ 15 then
        let ip := ip + 1
        if mavg < 100 * 2 ^ 15 then ip + (100 - sar mavg 15).toNat
        else ip
      else ip
    (ip, mavg, rndb)
  else (ip + 1, mavg, rndb)

/-- The match-acceptance step of the compression loop (lines 846-884 of
lzav.h): clamp the maximal match length, attempt the lazy
literal-consuming earlier match, extend the match, and write the block.
Returns `(out, cbp, ip, lc, rc)` with `ip` advanced past the match. -/
def lzav_match_emit (src : List Nat) (srcl ip ipa : Nat) (out : List Nat)
    (cbp : Option Nat) (wpo d : Nat) :
    List Nat × Option Nat × Nat × Nat × Nat :=
  let ml := if d > LZAV_REF_LEN then LZAV_REF_LEN else d
  let ml := if ip + ml > srcl - 5 then srcl - 5 - ip else ml
  let lc := ip - ipa
  let lazy : Option Nat :=
    if lc ≠ 0 ∧ lc < LZAV_REF_MIN then
      let rc2 := lzav_match_len src src (ip - lc) (wpo - lc) ml
      if rc2 ≥ LZAV_REF_MIN then some rc2 else none
    else none
  match lazy with
  | some rc =>
    let ip := ip - lc
    let r := lzav_write_blk_1 out 0 rc d src ipa cbp LZAV_REF_MIN
    (r.1, r.2, ip + rc, 0, rc)
  | none =>
    let rc := LZAV_REF_MIN +
      lzav_match_len src src (ip + LZAV_REF_MIN) (wpo + LZAV_REF_MIN)
        (ml - LZAV_REF_MIN)
    let r := lzav_write_blk_1 out lc rc d src ipa cbp LZAV_REF_MIN
    (r.1, r.2, ip + rc, lc, rc)

/-- The main compression loop of `lzav_compress` (lines 703-885 of lzav.h):
hash lookup, adaptive skip, match extension and block emission.  Also
returns the trace of emitted `(lc, rc, d)` reference blocks.  State:
`(fuel, ip, ipa, out, cbp, ht, mavg, rndb, trace)`; result:
`(out, ipa, trace)`.  `fuel` dominates the iteration count since `ip`
strictly increases every iteration. -/
def lzav_compress_loop (src : List Nat) (srcl htcap hmask : Nat) :
    Nat → Nat → Nat → List Nat → Option Nat → List HTEnt → Int → Int →
    List (Nat × Nat × Nat) → List Nat × Nat × List (Nat × Nat × Nat)
  | 0, _, ipa, out, _, _, _, _, trace => (out, ipa, trace)
  | fuel + 1, ip, ipa, out, cbp, ht, mavg, rndb, trace =>
    if ip < srcl - 10 then
      let iw1 := le32 src ip
      let iw2 := le16 src (ip + 4)
      let hval := lzav_hash iw1 iw2
      let ipo := ip
      let idx := (hval &&& hmask) / 16
      let e := ht.getD idx ⟨0, 0, 0, 0⟩
      match lzav_ht_find src ht idx iw1 iw2 ipo with
      | (none, ht) =>
        let s := lzav_skip ip ipa ipo mavg rndb
        lzav_compress_loop src srcl htcap hmask fuel s.1 ipa out cbp ht
          s.2.1 s.2.2 trace
      | (some wpo, ht) =>
        let d := (ipo % 2 ^ 32 + (2 ^ 32 - wpo % 2 ^ 32)) % 2 ^ 32
        if d ≤ 7 ∨ d ≥ LZAV_WIN_LEN then
          let ht := if d ≥ LZAV_WIN_LEN then
              (if iw1 = e.w1 then ht.set idx ⟨e.w1, ipo, e.w2, e.o2⟩
               else ht.set idx ⟨e.w1, e.o1, e.w2, ipo⟩)
            else ht
          lzav_compress_loop src srcl htcap hmask fuel (ip + 1) ipa out cbp
            ht mavg rndb trace
        else
          let ht := if d > LZAV_REF_LEN then
              (if iw1 ≠ e.w1 then ht.set idx ⟨iw1, ipo, e.w1, e.o1⟩
               else ht.set idx ⟨e.w1, ipo, e.w2, e.o2⟩)
            else ht
          let r := lzav_match_emit src srcl ip ipa out cbp wpo d
          let rc := r.2.2.2.2
          lzav_compress_loop src srcl htcap hmask fuel r.2.2.1 r.2.2.1
            r.1 r.2.1 ht (mavg + sar ((rc : Int) * 2 ^ 22 - mavg) 10) rndb
            (trace ++ [(r.2.2.2.1, rc, d)])
    else (out, ipa, trace)

/-- Function `lzav_compress`, with an instrumented trace of the emitted
`(lc, rc, d)` reference blocks.  The three `junk` lists model the arbitrary
prior contents of the three possible hash-table backings (caller-supplied
external buffer, heap allocation, on-stack buffer); heap allocation is
assumed to succeed.  The null-pointer and aliasing conditions of the C
parameter check are the three Boolean flags. -/
def lzav_compress_full (src : List Nat) (dstl : Int)
    (srcNull dstNull srcEqDst extPresent : Bool) (extBufl : Int)
    (junkExt junkHeap junkStack : List HTEnt) :
    Int × List Nat × List (Nat × Nat × Nat) :=
  let srcl := src.length
  if srcl = 0 ∨ srcNull ∨ dstNull ∨ srcEqDst ∨
      dstl < lzav_compress_bound srcl then
    (0, [], [])
  else if srcl ≤ LZAV_LIT_FIN then
    (2 + LZAV_LIT_FIN,
      (LZAV_FMT_CUR * 16 ||| LZAV_REF_MIN) :: srcl ::
        (src ++ List.replicate (LZAV_LIT_FIN - srcl) 0), [])
  else
    let htcap := lzav_htcap srcl
    let htsize := htcap * 16
    let junk := if htsize > 16384 then
        (if extPresent ∧ (htsize : Int) ≤ extBufl then junkExt
         else junkHeap)
      else junkStack
    let hmask := (htsize - 1) ^^^ 15
    let iv1 : Nat := if 6 < srcl - 10 then le32 src 6 else 0
    let ht := htInit ⟨iv1, LZAV_REF_MIN, iv1, LZAV_REF_MIN⟩ htcap 0 junk
    let out := [LZAV_FMT_CUR * 16 ||| LZAV_REF_MIN]
    let r := lzav_compress_loop src srcl htcap hmask srcl LZAV_REF_MIN 0
      out none ht (100 * 2 ^ 22) 0 []
    let fin := lzav_write_fin_1 r.1 (srcl - r.2.1) src r.2.1
    ((fin.length : Int), fin, r.2.2)

/-- Function `lzav_compress`: returned length and written output bytes. -/
def lzav_compress (src : List Nat) (dstl : Int)
    (srcNull dstNull srcEqDst extPresent : Bool) (extBufl : Int)
    (junkExt junkHeap junkStack : List HTEnt) : Int × List Nat :=
  let r := lzav_compress_full src dstl srcNull dstNull srcEqDst extPresent
    extBufl junkExt junkHeap junkStack
  (r.1, r.2.1)

/-- Result of the decompression loop: an error return from inside the loop,
or the final output cursor after the loop's exit. -/
inductive DecRes where
  | fail (code : Int) (buf : List Nat)
  | done (op : Nat) (buf : List Nat)
deriving DecidableEq, Repr

/-- One parsed block header of the decompression loop: an error (source or
back-reference out of bounds), a literal block, or a reference block.
Fields: `short` selects the narrow fast-copy path, `ipd` the literal data
position, `cc` the copy count, then the advanced input cursor, the next
header byte and the next carry state. -/
inductive Parsed where
  | bad (e : Int)
  | lit (short : Bool) (ipd cc ip bh cv : Nat)
  | ref (short : Bool) (d cc ip bh cv csh : Nat)
deriving DecidableEq, Repr

/-- The header-decoding state machine of one `lzav_decompress` loop
iteration (lines 1011-1270 of lzav.h): block-type dispatch on bits 4-5 of
`bh`, copy-count and offset decoding with the carry `cv`/`csh`, advance of
`ip`, the read of the next header byte, and the source-OOB and
reference-OOB checks exactly as ordered in the source.  The buffer copies
themselves are performed by the caller on the parsed result. -/
def lzav_decompress_parse (src : List Nat) (srcl mref1 ip op cv csh bh :
    Nat) : Parsed :=
  if bh &&& 0x30 = 0 then
    -- Block type 0: literals.
    let ncv := bh / 64
    let cc := bh &&& 15
    if cc ≠ 0 then
      let ipd := ip + 1
      let ip := ip + 1 + cc
      if ip > srcl then .bad LZAV_E_SRCOOB
      else .lit true ipd cc ip (if ip < srcl then byteAt src ip else bh) ncv
    else
      let bv := le16 src (ip + 1)
      let l2 := bv &&& 0xFF
      let lb : Nat := if l2 = 255 then 1 else 0
      let cc := 16 + l2 + (bv / 256 &&& (0x100 - lb))
      let ipd := ip + 2 + lb
      let ip := ip + 2 + lb + cc
      if ip > srcl then .bad LZAV_E_SRCOOB
      else .lit false ipd cc ip (if ip < srcl then byteAt src ip else bh) ncv
  else
    let ccn := bh &&& 15
    if ccn ≠ 0 then
      -- Reference block, no additional length byte.
      let cc := (ccn + mref1) % 2 ^ 64
      if bh &&& 32 ≠ 0 then
        if bh &&& 16 = 0 then
          -- Block type 2.
          let bv := le16 src (ip + 1)
          let d := (bh / 64 ||| bv * 4) <<< csh ||| cv
          if d > op then .bad LZAV_E_REFOOB
          else .ref true d cc (ip + 3) (byteAt src (ip + 3)) 0 0
        else
          -- Block type 3.
          let bv := le32 src (ip + 1)
          let d := (bv &&& 0xFFFFFF) <<< csh ||| cv
          if d > op then .bad LZAV_E_REFOOB
          else .ref true d cc (ip + 4) (bv / 2 ^ 24) (bh / 64) 2
      else
        -- Block type 1.
        let d := (bh / 64 ||| byteAt src (ip + 1) * 4) <<< csh ||| cv
        if d > op then .bad LZAV_E_REFOOB
        else .ref true d cc (ip + 2) (byteAt src (ip + 2)) 0 0
    else
      -- Reference block with a large copy count.
      let cc := (16 + mref1) % 2 ^ 64
      if bh &&& 32 ≠ 0 then
        if bh &&& 16 = 0 then
          -- Block type 2.
          let bv := le32 src (ip + 1)
          let d := (bh / 64 ||| (bv &&& 0xFFFF) * 4) <<< csh ||| cv
          if d > op then .bad LZAV_E_REFOOB
          else .ref false d (cc + (bv / 2 ^ 16 &&& 0xFF)) (ip + 4)
            (bv / 2 ^ 24) 0 0
        else
          -- Block type 3.
          let bv := le32 src (ip + 1)
          let d := (bv &&& 0xFFFFFF) <<< csh ||| cv
          if d > op then .bad LZAV_E_REFOOB
          else .ref false d (cc + bv / 2 ^ 24) (ip + 5)
            (byteAt src (ip + 5)) (bh / 64) 2
      else
        -- Block type 1.
        let d := (bh / 64 ||| byteAt src (ip + 1) * 4) <<< csh ||| cv
        if d > op then .bad LZAV_E_REFOOB
        else .ref false d (cc + byteAt src (ip + 2)) (ip + 3)
          (byteAt src (ip + 3)) 0 0

/-- Result of one block's copy phase: destination-OOB failure (with the
buffer as written so far) or the updated buffer. -/
inductive CopyRes where
  | oob (buf : List Nat)
  | ok (buf : List Nat)
deriving DecidableEq, Repr

/-- Literal copy of the source decoder, `cc ≤ 15` path: a single 16-byte
`memcpy` below the fast-copy thresholds, else the checked byte loop. -/
def decLitCopyShort (src : List Nat) (srcl dstl op ipd cc : Nat)
    (buf : List Nat) : CopyRes :=
  if op < dstl - 63 ∧ ipd + 15 < srcl then
    .ok (setBytes buf op (getBytes src ipd 16))
  else if op + cc > dstl then .oob buf
  else .ok (litCopy src buf op ipd cc)

/-- Literal copy of the source decoder, long path: a 64-byte `memcpy` below
the fast-copy thresholds with byte-wise completion, else the checked byte
loop. -/
def decLitCopyLong (src : List Nat) (srcl dstl op ipd cc : Nat)
    (buf : List Nat) : CopyRes :=
  if op < dstl - 63 ∧ ipd + 63 < srcl then
    let buf := setBytes buf op (getBytes src ipd 64)
    if cc ≤ 64 then .ok buf
    else if op + 64 + (cc - 64) > dstl then .oob buf
    else .ok (litCopy src buf (op + 64) (ipd + 64) (cc - 64))
  else if op + cc > dstl then .oob buf
  else .ok (litCopy src buf op ipd cc)

/-- Reference copy of the source decoder, `cc ≤ 15 + mref1` path: wide
16-byte plus 4-byte `LZAV_MEMMOVE`s below the fast-copy threshold, else the
checked overlap-tolerant byte loop. -/
def decRefCopyShort (dstl op d cc : Nat) (buf : List Nat) : CopyRes :=
  if op < dstl - 63 then
    let buf := moveBytes buf op (op - d) 16
    .ok (moveBytes buf (op + 16) (op - d + 16) 4)
  else if op + cc > dstl then .oob buf
  else .ok (fwdCopy buf op (op - d) cc)

/-- Reference copy of the source decoder, large-copy-count path: four wide
16-byte `LZAV_MEMMOVE`s below the fast-copy threshold with checked
byte-wise completion beyond 64 bytes, else the checked byte loop. -/
def decRefCopyLong (dstl op d cc : Nat) (buf : List Nat) : CopyRes :=
  if op < dstl - 63 then
    let buf := moveBytes buf op (op - d) 16
    let buf := moveBytes buf (op + 16) (op - d + 16) 16
    let buf := moveBytes buf (op + 32) (op - d + 32) 16
    let buf := moveBytes buf (op + 48) (op - d + 48) 16
    if cc ≤ 64 then .ok buf
    else if op + 64 + (cc - 64) > dstl then .oob buf
    else .ok (fwdCopy buf (op + 64) (op + 64 - d) (cc - 64))
  else if op + cc > dstl then .oob buf
  else .ok (fwdCopy buf op (op - d) cc)

/-- The main loop of `lzav_decompress` (lines 1004-1270 of lzav.h): parse
one block header, run its copy phase, continue.  State:
`(fuel, ip, op, cv, csh, bh, buf)`.  `fuel` dominates the iteration count
since `ip` strictly increases every iteration. -/
def lzav_decompress_loop (src : List Nat) (srcl dstl mref1 : Nat) :
    Nat → Nat → Nat → Nat → Nat → Nat → List Nat → DecRes
  | 0, _, op, _, _, _, buf => .done op buf
  | fuel + 1, ip, op, cv, csh, bh, buf =>
    if ip < srcl - 5 then
      match lzav_decompress_parse src srcl mref1 ip op cv csh bh with
      | .bad e => .fail e buf
      | .lit short ipd cc ip' bh' cv' =>
        match (if short then decLitCopyShort src srcl dstl op ipd cc buf
          else decLitCopyLong src srcl dstl op ipd cc buf) with
        | .oob b => .fail LZAV_E_DSTOOB b
        | .ok b =>
          lzav_decompress_loop src srcl dstl mref1 fuel ip' (op + cc) cv' 2
            bh' b
      | .ref short d cc ip' bh' cv' csh' =>
        match (if short then decRefCopyShort dstl op d cc buf
          else decRefCopyLong dstl op d cc buf) with
        | .oob b => .fail LZAV_E_DSTOOB b
        | .ok b =>
          lzav_decompress_loop src srcl dstl mref1 fuel ip' (op + cc) cv'
            csh' bh' b
    else .done op buf

/-- Function `lzav_decompress` (stream format 1).  `srcl` and `dstl` are the
C `int` parameters; `dst0` is the arbitrary prior contents of the
destination buffer (the fast copy paths can read them); the Boolean flags
model the null-pointer and aliasing parameter conditions.  Returns the C
return value together with the destination buffer contents. -/
def lzav_decompress (src : List Nat) (srcl dstl : Int) (dst0 : List Nat)
    (srcNull dstNull srcEqDst : Bool) : Int × List Nat :=
  if srcl < 0 then (LZAV_E_PARAMS, dst0)
  else if srcl = 0 then
    (if dstl = 0 then 0 else LZAV_E_PARAMS, dst0)
  else if srcNull ∨ dstNull ∨ srcEqDst ∨ dstl ≤ 0 then (LZAV_E_PARAMS, dst0)
  else if byteAt src 0 / 16 ≠ 1 then (LZAV_E_UNKFMT, dst0)
  else
    let sl := srcl.toNat
    let dl := dstl.toNat
    let mref1 := ((byteAt src 0 &&& 15) + (2 ^ 64 - 1)) % 2 ^ 64
    let bh0 := if 1 < sl - 5 then byteAt src 1 else 0
    match lzav_decompress_loop src sl dl mref1 sl 1 0 0 0 bh0 dst0 with
    | .fail e buf => (e, buf)
    | .done op buf =>
      if op ≠ dl then (LZAV_E_DSTLEN, buf) else ((op : Nat), buf)

/-- Byte-wise literal copy with the branch structure (and therefore the
error behavior) of `decLitCopyShort`: the reference semantics copies
exactly `cc` bytes. -/
def decLitCopyShortSpec (src : List Nat) (srcl dstl op ipd cc : Nat)
    (buf : List Nat) : CopyRes :=
  if op < dstl - 63 ∧ ipd + 15 < srcl then
    .ok (litCopy src buf op ipd cc)
  else if op + cc > dstl then .oob buf
  else .ok (litCopy src buf op ipd cc)

/-- Byte-wise literal copy with the branch structure of `decLitCopyLong`. -/
def decLitCopyLongSpec (src : List Nat) (srcl dstl op ipd cc : Nat)
    (buf : List Nat) : CopyRes :=
  if op < dstl - 63 ∧ ipd + 63 < srcl then
    if cc ≤ 64 then .ok (litCopy src buf op ipd cc)
    else if op + 64 + (cc - 64) > dstl then .oob buf
    else .ok (litCopy src buf op ipd cc)
  else if op + cc > dstl then .oob buf
  else .ok (litCopy src buf op ipd cc)

/-- Byte-wise forward reference copy with the branch structure of
`decRefCopyShort`, together with the flag recording that a fast-path block
satisfied the conditions (`cc ≤ d` and `cc` within the 20 moved bytes)
under which the wide moves reproduce byte-wise forward copying. -/
def decRefCopyShortSpec (dstl op d cc : Nat) (buf : List Nat) :
    CopyRes × Bool :=
  if op < dstl - 63 then
    (.ok (fwdCopy buf op (op - d) cc), decide (cc ≤ d ∧ cc ≤ 20))
  else if op + cc > dstl then (.oob buf, true)
  else (.ok (fwdCopy buf op (op - d) cc), decide (cc ≤ d))

/-- Byte-wise forward reference copy with the branch structure of
`decRefCopyLong`, with the fast-path safety flag (`cc ≤ d`). -/
def decRefCopyLongSpec (dstl op d cc : Nat) (buf : List Nat) :
    CopyRes × Bool :=
  if op < dstl - 63 then
    if cc ≤ 64 then (.ok (fwdCopy buf op (op - d) cc), decide (cc ≤ d))
    else if op + 64 + (cc - 64) > dstl then (.oob buf, decide (cc ≤ d))
    else (.ok (fwdCopy buf op (op - d) cc), decide (cc ≤ d))
  else if op + cc > dstl then (.oob buf, true)
  else (.ok (fwdCopy buf op (op - d) cc), decide (cc ≤ d))

/-- Specification-semantics twin of `lzav_decompress_loop`: identical
header parsing and control flow, but every copy is the plain byte-wise
copy of exactly `cc` bytes — for reference blocks the byte-wise forward
copy from `op - d` in which each read observes the preceding writes.  The
accumulated flag records whether every reference block processed on a
wide-move fast path satisfied the conditions under which the wide moves
reproduce this reference semantics. -/
def lzav_decompress_spec_loop (src : List Nat) (srcl dstl mref1 : Nat) :
    Nat → Nat → Nat → Nat → Nat → Nat → List Nat → Bool → DecRes × Bool
  | 0, _, op, _, _, _, buf, safe => (.done op buf, safe)
  | fuel + 1, ip, op, cv, csh, bh, buf, safe =>
    if ip < srcl - 5 then
      match lzav_decompress_parse src srcl mref1 ip op cv csh bh with
      | .bad e => (.fail e buf, safe)
      | .lit short ipd cc ip' bh' cv' =>
        match (if short then decLitCopyShortSpec src srcl dstl op ipd cc buf
          else decLitCopyLongSpec src srcl dstl op ipd cc buf) with
        | .oob b => (.fail LZAV_E_DSTOOB b, safe)
        | .ok b =>
          lzav_decompress_spec_loop src srcl dstl mref1 fuel ip' (op + cc)
            cv' 2 bh' b safe
      | .ref short d cc ip' bh' cv' csh' =>
        match (if short then decRefCopyShortSpec dstl op d cc buf
          else decRefCopyLongSpec dstl op d cc buf) with
        | (.oob b, sf) => (.fail LZAV_E_DSTOOB b, safe && sf)
        | (.ok b, sf) =>
          lzav_decompress_spec_loop src srcl dstl mref1 fuel ip' (op + cc)
            cv' csh' bh' b (safe && sf)
    else (.done op buf, safe)

/-- Byte-wise-copy reference semantics of `lzav_decompress` (the spec's
"equivalence of a byte-wise forward copy"), with the fast-path safety flag
of `lzav_decompress_spec_loop` as third component. -/
def lzav_decompress_spec (src : List Nat) (srcl dstl : Int)
    (dst0 : List Nat) (srcNull dstNull srcEqDst : Bool) :
    Int × List Nat × Bool :=
  if srcl < 0 then (LZAV_E_PARAMS, dst0, true)
  else if srcl = 0 then
    (if dstl = 0 then 0 else LZAV_E_PARAMS, dst0, true)
  else if srcNull ∨ dstNull ∨ srcEqDst ∨ dstl ≤ 0 then
    (LZAV_E_PARAMS, dst0, true)
  else if byteAt src 0 / 16 ≠ 1 then (LZAV_E_UNKFMT, dst0, true)
  else
    let sl := srcl.toNat
    let dl := dstl.toNat
    let mref1 := ((byteAt src 0 &&& 15) + (2 ^ 64 - 1)) % 2 ^ 64
    let bh0 := if 1 < sl - 5 then byteAt src 1 else 0
    match lzav_decompress_spec_loop src sl dl mref1 sl 1 0 0 0 bh0 dst0
        true with
    | (.fail e buf, safe) => (e, buf, safe)
    | (.done op buf, safe) =>
      if op ≠ dl then (LZAV_E_DSTLEN, buf, safe)
      else ((op : Nat), buf, safe)

/-! Basic facts about the decompressor's return codes. -/

theorem parse_bad_codes (src : List Nat) (srcl mref1 ip op cv csh bh : Nat)
    (e : Int) (h : lzav_decompress_parse src srcl mref1 ip op cv csh bh =
      .bad e) : e = LZAV_E_SRCOOB ∨ e = LZAV_E_REFOOB := by
  simp only [lzav_decompress_parse] at h
  repeat' split at h
  all_goals first
    | (cases h; decide)
    | exact Parsed.noConfusion h

theorem lzav_decompress_loop_fail_codes (src : List Nat)
    (srcl dstl mref1 : Nat) : ∀ fuel ip op cv csh bh buf e b',
    lzav_decompress_loop src srcl dstl mref1 fuel ip op cv csh bh buf =
      .fail e b' →
    e = LZAV_E_SRCOOB ∨ e = LZAV_E_DSTOOB ∨ e = LZAV_E_REFOOB := by
  intro fuel
  induction fuel with
  | zero =>
    intro ip op cv csh bh buf e b' h
    simp only [lzav_decompress_loop] at h
    exact DecRes.noConfusion h
  | succ n ih =>
    intro ip op cv csh bh buf e b' h
    simp only [lzav_decompress_loop] at h
    repeat' split at h
    all_goals first
      | exact ih _ _ _ _ _ _ _ _ h
      | (cases h; decide)
      | (rename_i a heq
         cases h
         rcases parse_bad_codes _ _ _ _ _ _ _ _ _ heq with h1 | h1
         · exact Or.inl h1
         · exact Or.inr (Or.inr h1))
      | exact DecRes.noConfusion h

/-- C4: for all parameters, `lzav_decompress` returns either a negative
error code or a non-negative value exactly equal to `dstl`; it never
returns a non-negative value different from `dstl` (after the decode loop,
`op ≠ ope` yields `E_DSTLEN`, and the `srcl = 0`, `dstl = 0` case returns
`0 = dstl`). -/
theorem lzav_decompress_result_neg_or_dstl (src : List Nat)
    (srcl dstl : Int) (dst0 : List Nat) (sn dn sd : Bool) :
    (lzav_decompress src srcl dstl dst0 sn dn sd).1 < 0 ∨
    (lzav_decompress src srcl dstl dst0 sn dn sd).1 = dstl := by
  simp only [lzav_decompress]
  repeat' split
  all_goals dsimp only
  all_goals first
    | (left; decide)
    | (right; omega)
    | (rename_i heq
       rcases lzav_decompress_loop_fail_codes _ _ _ _ _ _ _ _ _ _ _ _ _ heq
         with h | h | h <;> (left; subst h; decide))

/-- C7: `lzav_decompress` returns `E_PARAMS` exactly when `srcl < 0`, or
`srcl = 0` with `dstl ≠ 0`, or (`srcl > 0` and: src or dst is null, or
`src = dst`, or `dstl ≤ 0`); when `srcl = 0` and `dstl = 0` it returns 0;
and an invalid-parameter call never returns `E_UNKFMT` (parameter
validation precedes the format check). -/
theorem lzav_decompress_params_iff (src : List Nat) (srcl dstl : Int)
    (dst0 : List Nat) (sn dn sd : Bool) :
    ((lzav_decompress src srcl dstl dst0 sn dn sd).1 = LZAV_E_PARAMS ↔
      (srcl < 0 ∨ (srcl = 0 ∧ dstl ≠ 0) ∨
        (0 < srcl ∧ (sn = true ∨ dn = true ∨ sd = true ∨ dstl ≤ 0)))) ∧
    (srcl = 0 ∧ dstl = 0 →
      (lzav_decompress src srcl dstl dst0 sn dn sd).1 = 0) ∧
    ((srcl < 0 ∨ (srcl = 0 ∧ dstl ≠ 0) ∨
        (0 < srcl ∧ (sn = true ∨ dn = true ∨ sd = true ∨ dstl ≤ 0))) →
      (lzav_decompress src srcl dstl dst0 sn dn sd).1 ≠ LZAV_E_UNKFMT) := by
  refine ⟨?_, ?_, ?_⟩ <;>
  · simp only [lzav_decompress]
    repeat' split
    all_goals dsimp only
    all_goals
      try (rename_i heq
           rcases lzav_decompress_loop_fail_codes _ _ _ _ _ _ _ _ _ _ _ _ _
             heq with h | h | h <;> subst h)
    all_goals simp_all [LZAV_E_PARAMS, LZAV_E_UNKFMT, LZAV_E_DSTLEN,
      LZAV_E_SRCOOB, LZAV_E_DSTOOB, LZAV_E_REFOOB]
    all_goals try omega

/-- Witness for C7 at concrete inputs: `srcl = 0, dstl = 1` yields
`E_PARAMS` and `srcl = 0, dstl = 0` yields 0. -/
theorem lzav_decompress_params_iff_witness :
    (lzav_decompress [] 0 1 [0] false false false).1 = LZAV_E_PARAMS ∧
    (lzav_decompress [] 0 0 [] false false false).1 = 0 := by
  constructor
  · exact (lzav_decompress_params_iff [] 0 1 [0] false false false).1.2
      (by decide)
  · exact (lzav_decompress_params_iff [] 0 0 [] false false false).2.1
      (by decide)

/-- C10: with valid parameters and `srcl ≥ 1`, `lzav_decompress` returns
`E_UNKFMT` exactly when the high nibble of the first source byte differs
from 1; the low nibble (`mref`) is never validated, and for a zero `mref`
nibble the decoder's `mref1 = (prefix & 15) - 1` wraps to `SIZE_MAX` in
`size_t` arithmetic, as modelled in `lzav_decompress`. -/
theorem lzav_decompress_unkfmt_iff (src : List Nat) (srcl dstl : Int)
    (dst0 : List Nat) (hs : 1 ≤ srcl) (hd : 1 ≤ dstl) :
    ((lzav_decompress src srcl dstl dst0 false false false).1 =
        LZAV_E_UNKFMT ↔ byteAt src 0 / 16 ≠ 1) ∧
    ((byteAt src 0 &&& 15) + (2 ^ 64 - 1)) % 2 ^ 64 =
      (byteAt src 0 &&& 15) - 1 + (if byteAt src 0 &&& 15 = 0 then
        2 ^ 64 - 1 else 0) := by
  constructor
  · simp only [lzav_decompress]
    repeat' split
    all_goals dsimp only
    all_goals
      try (rename_i heq
           rcases lzav_decompress_loop_fail_codes _ _ _ _ _ _ _ _ _ _ _ _ _
             heq with h | h | h <;> subst h)
    all_goals simp_all [LZAV_E_PARAMS, LZAV_E_UNKFMT, LZAV_E_DSTLEN,
      LZAV_E_SRCOOB, LZAV_E_DSTOOB, LZAV_E_REFOOB]
    all_goals omega
  · have hb : byteAt src 0 &&& 15 < 16 := Nat.lt_of_le_of_lt
      (Nat.and_le_right) (by decide)
    rcases Nat.eq_zero_or_pos (byteAt src 0 &&& 15) with h0 | h0
    · simp [h0]
    · rw [if_neg (by omega)]
      omega

/-- Witness for C10: the prefix byte `0x10` (format nibble 1, zero `mref`
nibble) is accepted — the stream `[0x10, 0x02, 7, 9, 0, 0, 0, 0]` decodes
successfully to two bytes — and its `mref1` wraps to `2 ^ 64 - 1`. -/
theorem lzav_decompress_unkfmt_iff_witness :
    ¬ ((lzav_decompress [16, 2, 7, 9, 0, 0, 0, 0] 8 2 [0, 0] false false
        false).1 = LZAV_E_UNKFMT) ∧
    (lzav_decompress [16, 2, 7, 9, 0, 0, 0, 0] 8 2 [0, 0] false false
      false).1 = 2 ∧
    ((byteAt [16, 2, 7, 9, 0, 0, 0, 0] 0 &&& 15) + (2 ^ 64 - 1)) % 2 ^ 64 =
      2 ^ 64 - 1 := by
  refine ⟨?_, by decide, by decide⟩
  intro h
  exact absurd
    ((lzav_decompress_unkfmt_iff [16, 2, 7, 9, 0, 0, 0, 0] 8 2 [0, 0]
      (by decide) (by decide)).1.mp h) (by decide)

end LZAV

namespace LZAV

/-! Facts about the compressor's hash-table initialization and the
short-input path. -/

theorem htInit_replicate (iv : HTEnt) : ∀ (n i : Nat) (t : List HTEnt),
    t.length = i + n → htInit iv n i t = t.take i ++ List.replicate n iv := by
  intro n
  induction n with
  | zero =>
    intro i t ht
    simp only [htInit, List.replicate_zero, List.append_nil]
    exact (List.take_of_length_le (by omega)).symm
  | succ n ih =>
    intro i t ht
    have hi : i < t.length := by omega
    rw [htInit, ih (i + 1) (t.set i iv) (by simp; omega)]
    rw [List.set_eq_take_append_cons_drop, if_pos hi]
    rw [List.take_append_eq_append_take]
    rw [List.take_take]
    have h2 : min (i + 1) i = i := by omega
    have h3 : (List.take i t).length = i := by
      simp [List.length_take, Nat.min_eq_left hi.le]
    rw [h2, h3]
    have h4 : i + 1 - i = 1 := by omega
    rw [h4]
    simp [List.replicate_succ]

/-- C6: for every source with `0 < srcl ≤ 5` and `dstl ≥
lzav_compress_bound srcl`, `lzav_compress` returns exactly 7, and the 7
output bytes are `0x16`, then `srcl` as one byte, then the `srcl` source
bytes verbatim, then `5 - srcl` zero bytes. -/
theorem lzav_compress_short (src : List Nat) (dstl : Int) (ep : Bool)
    (ebl : Int) (jE jH jS : List HTEnt) (h1 : 1 ≤ src.length)
    (h5 : src.length ≤ 5) (hd : lzav_compress_bound src.length ≤ dstl) :
    lzav_compress src dstl false false false ep ebl jE jH jS =
      (7, 22 :: src.length :: (src ++ List.replicate (5 - src.length) 0)) := by
  simp only [lzav_compress, lzav_compress_full]
  rw [if_neg, if_pos (by simpa [LZAV_LIT_FIN] using h5)]
  · simp [LZAV_FMT_CUR, LZAV_REF_MIN, LZAV_LIT_FIN]
  · push_neg
    refine ⟨by omega, by simp, by simp, by simp, by omega⟩

/-- Witness for C6 at the spec's concrete scenario E2: a single byte 0x41
compresses to `[0x16, 0x01, 0x41, 0, 0, 0, 0]`. -/
theorem lzav_compress_short_witness :
    lzav_compress [65] 100 false false false false 0 [] [] [] =
      (7, [22, 1, 65, 0, 0, 0, 0]) := by
  have h := lzav_compress_short [65] 100 false 0 [] [] []
    (by decide) (by decide) (by decide)
  simpa using h

/-- C9: the choice among stack, caller-supplied and heap hash-table storage
(whatever junk contents those backings hold) never affects the compressed
output: `lzav_compress` with any `ext_buf`/`ext_bufl` combination returns
the same value and bytes as with `ext_buf = 0`, because the table is fully
re-initialized from the source on every call (heap allocation assumed to
succeed; each backing is the sized table region of `lzav_htcap` items). -/
theorem lzav_compress_ext_noninterference (src : List Nat) (dstl : Int)
    (sn dn sd ep : Bool) (ebl : Int) (jE jH jS jE' jH' jS' : List HTEnt)
    (hE : jE.length = lzav_htcap src.length)
    (hH : jH.length = lzav_htcap src.length)
    (hS : jS.length = lzav_htcap src.length)
    (hE' : jE'.length = lzav_htcap src.length)
    (hH' : jH'.length = lzav_htcap src.length)
    (hS' : jS'.length = lzav_htcap src.length) :
    lzav_compress src dstl sn dn sd ep ebl jE jH jS =
      lzav_compress src dstl sn dn sd false 0 jE' jH' jS' := by
  have key : ∀ (iv : HTEnt) (t : List HTEnt),
      t.length = lzav_htcap src.length →
      htInit iv (lzav_htcap src.length) 0 t =
        List.replicate (lzav_htcap src.length) iv := by
    intro iv t ht
    simpa using htInit_replicate iv _ 0 t (by omega)
  simp only [lzav_compress, lzav_compress_full]
  split
  · rfl
  split
  · rfl
  rw [key _ _ (by split; exacts [by split <;> assumption, hS]),
      key _ _ (by split; exacts [by split <;> assumption, hS'])]

/-- Witness for C9: a caller-supplied external buffer with junk contents
gives the same compressed bytes as self-managed storage with different
junk. -/
theorem lzav_compress_ext_noninterference_witness :
    lzav_compress [1, 2, 3, 4, 5, 6, 7, 8, 1, 2, 3, 4, 5, 6, 7, 8, 1, 2, 3,
        4, 5, 6, 7, 8, 1, 2, 3, 4, 5, 6, 7, 8] 100 false false false true
        4096 (List.replicate 256 ⟨1, 2, 3, 4⟩)
        (List.replicate 256 ⟨5, 6, 7, 8⟩) (List.replicate 256 ⟨9, 9, 9, 9⟩) =
      lzav_compress [1, 2, 3, 4, 5, 6, 7, 8, 1, 2, 3, 4, 5, 6, 7, 8, 1, 2,
        3, 4, 5, 6, 7, 8, 1, 2, 3, 4, 5, 6, 7, 8] 100 false false false
        false 0 (List.replicate 256 ⟨0, 1, 0, 1⟩)
        (List.replicate 256 ⟨2, 0, 2, 0⟩) (List.replicate 256 ⟨0, 0, 0, 0⟩) :=
  lzav_compress_ext_noninterference _ 100 false false false true 4096 _ _ _
    _ _ _ (by decide) (by decide) (by decide) (by decide) (by decide)
    (by decide)

end LZAV

namespace LZAV

/-! Characterization of the block writer's literal emission (claim C5). -/

theorem writeLitChunks_base (src : List Nat) (lc : Nat) (h : lc ≤ 526) :
    ∀ (f : Nat) (out : List Nat) (ipa : Nat),
    writeLitChunks src f out ipa lc = (out, ipa, lc) := by
  intro f out ipa
  cases f with
  | zero => rfl
  | succ m =>
    simp only [writeLitChunks, LZAV_LIT_LEN]
    rw [if_neg (by omega)]

theorem writeLitChunks_fuel (src : List Nat) : ∀ (f1 f2 : Nat)
    (out : List Nat) (ipa lc : Nat), lc ≤ 526 * f1 + 526 →
    lc ≤ 526 * f2 + 526 →
    writeLitChunks src f1 out ipa lc = writeLitChunks src f2 out ipa lc := by
  intro f1
  induction f1 with
  | zero =>
    intro f2 out ipa lc h1 h2
    rw [writeLitChunks_base src lc (by omega)]
    rw [writeLitChunks_base src lc (by omega)]
  | succ n ih =>
    intro f2 out ipa lc h1 h2
    by_cases h : lc > 526
    · cases f2 with
      | zero => omega
      | succ m =>
        simp only [writeLitChunks, LZAV_LIT_LEN]
        rw [if_pos (by omega), if_pos (by omega)]
        exact ih m _ _ _ (by omega) (by omega)
    · rw [writeLitChunks_base src lc (by omega)]
      rw [writeLitChunks_base src lc (by omega)]

/-- C5 (amended): the literal-run encoding of the block writer uses a
1-byte header for lengths 1..15, a 2-byte header (low nibble 0, then
`len - 16`) for 16..270, a 3-byte header (low nibble 0, then 0xFF, then
`len - 271`) for 271..526, and any longer literal run is reduced by
526-byte chunks emitted as `[0x00, 0xFF, 0xFF]` plus the chunk's bytes
(the source's `LZAV_LIT_LEN = 526`, not 525 as the claim stated). -/
theorem lzav_write_blk_lit_ranges (out : List Nat) (lc d : Nat)
    (src : List Nat) (ipa : Nat) (cbp : Option Nat) :
    (1 ≤ lc → lc ≤ 15 →
      lzav_write_blk_lit out lc d src ipa cbp =
        (out ++ (d % 4 * 64 ||| lc) :: (src.drop ipa).take lc, d / 4,
          none)) ∧
    (16 ≤ lc → lc ≤ 270 →
      lzav_write_blk_lit out lc d src ipa cbp =
        (out ++ d % 4 * 64 :: (lc - 16) :: (src.drop ipa).take lc, d / 4,
          none)) ∧
    (271 ≤ lc → lc ≤ 526 →
      lzav_write_blk_lit out lc d src ipa cbp =
        (out ++ d % 4 * 64 :: 255 :: (lc - 271) :: (src.drop ipa).take lc,
          d / 4, none)) ∧
    (526 < lc →
      lzav_write_blk_lit out lc d src ipa cbp =
        lzav_write_blk_lit (out ++ 0 :: 255 :: 255 ::
          (src.drop ipa).take 526) (lc - 526) d src (ipa + 526) cbp) := by
  refine ⟨?_, ?_, ?_, ?_⟩
  · intro hl hu
    simp only [lzav_write_blk_lit]
    rw [writeLitChunks_base src lc (by omega)]
    simp only []
    rw [if_pos (by omega : lc ≠ 0), if_pos (by omega : lc < 1 + 15)]
  · intro hl hu
    simp only [lzav_write_blk_lit]
    rw [writeLitChunks_base src lc (by omega)]
    simp only []
    rw [if_pos (by omega : lc ≠ 0), if_neg (by omega : ¬ lc < 1 + 15),
      if_pos (by omega : lc < 1 + 15 + 255)]
    simp [Nat.sub_sub]
  · intro hl hu
    simp only [lzav_write_blk_lit]
    rw [writeLitChunks_base src lc (by omega)]
    simp only []
    rw [if_pos (by omega : lc ≠ 0), if_neg (by omega : ¬ lc < 1 + 15),
      if_neg (by omega : ¬ lc < 1 + 15 + 255)]
    simp [Nat.sub_sub]
  · intro hl
    have hW : writeLitChunks src lc out ipa lc =
        writeLitChunks src (lc - 526)
          (out ++ 0 :: 255 :: 255 :: (src.drop ipa).take 526) (ipa + 526)
          (lc - 526) := by
      obtain ⟨k, rfl⟩ : ∃ k, lc = k + 1 := ⟨lc - 1, by omega⟩
      rw [writeLitChunks]
      rw [if_pos (by simp only [LZAV_LIT_LEN]; omega)]
      exact writeLitChunks_fuel src k (k + 1 - 526) _ _ _ (by omega)
        (by omega)
    simp only [lzav_write_blk_lit]
    rw [hW]

/-- Counterexample to C5 as stated: a literal run of length 526 (greater
than the claim's 525) is NOT split into 525-byte chunks headed by
`[0x00, 0xFF, 0xFF]`; the block writer emits it as a single literal block
with a 3-byte header carrying the offset-carry bits (here `0x40`) and
third byte `526 - 271 = 255`. -/
theorem lzav_write_blk_lit_526_single_block :
    (lzav_write_blk_1 [] 526 6 9 (List.replicate 526 7) 0 none 6).1 =
      64 :: 255 :: 255 :: (List.replicate 526 7 ++ [145, 0]) ∧
    (lzav_write_blk_1 [] 526 6 9 (List.replicate 526 7) 0 none 6).1 ≠
      0 :: 255 :: 255 :: (List.replicate 525 7 ++ 65 :: 7 :: [145, 0]) := by
  decide

/-- Witness for C5 (amended) at two concrete literal lengths: the 3-byte
header covers length 526 exactly, and length 527 is reduced by one
526-byte `[0x00, 0xFF, 0xFF]` chunk. -/
theorem lzav_write_blk_lit_ranges_witness :
    lzav_write_blk_lit [] 526 9 (List.replicate 527 7) 0 none =
      ([] ++ 9 % 4 * 64 :: 255 :: (526 - 271) ::
        ((List.replicate 527 7).drop 0).take 526, 9 / 4, none) ∧
    lzav_write_blk_lit [] 527 9 (List.replicate 527 7) 0 none =
      lzav_write_blk_lit ([] ++ 0 :: 255 :: 255 ::
        ((List.replicate 527 7).drop 0).take 526) (527 - 526) 9
        (List.replicate 527 7) (0 + 526) none :=
  ⟨(lzav_write_blk_lit_ranges [] 526 9 (List.replicate 527 7) 0 none).2.2.1
      (by decide) (by decide),
    (lzav_write_blk_lit_ranges [] 527 9 (List.replicate 527 7) 0
      none).2.2.2 (by decide)⟩

end LZAV

namespace LZAV

/-! Pointwise characterizations of the byte-buffer primitives. -/

theorem byteAt_cons_succ (a : Nat) (t : List Nat) (k : Nat) :
    byteAt (a :: t) (k + 1) = byteAt t k := rfl

theorem setByte_length (l : List Nat) (i v : Nat) :
    (setByte l i v).length = l.length := List.length_set l i v

theorem byteAt_setByte_ne : ∀ (l : List Nat) (j v k : Nat), k ≠ j →
    byteAt (setByte l j v) k = byteAt l k := by
  intro l
  induction l with
  | nil => intro j v k h; rfl
  | cons a t ih =>
    intro j v k h
    cases j with
    | zero =>
      cases k with
      | zero => omega
      | succ k' => rfl
    | succ j' =>
      cases k with
      | zero => rfl
      | succ k' => exact ih j' v k' (by omega)

theorem byteAt_setByte_eq : ∀ (l : List Nat) (j v : Nat), j < l.length →
    byteAt (setByte l j v) j = v := by
  intro l
  induction l with
  | nil => intro j v h; simp at h
  | cons a t ih =>
    intro j v h
    cases j with
    | zero => rfl
    | succ j' => exact ih j' v (by simpa using h)

theorem byteAt_oob (l : List Nat) (k : Nat) (h : l.length ≤ k) :
    byteAt l k = 0 := List.getD_eq_default _ _ h

theorem setBytes_length : ∀ (vs l : List Nat) (i : Nat),
    (setBytes l i vs).length = l.length := by
  intro vs
  induction vs with
  | nil => intro l i; rfl
  | cons v vs ih =>
    intro l i
    rw [setBytes, ih, setByte_length]

theorem byteAt_setBytes : ∀ (vs l : List Nat) (i k : Nat),
    byteAt (setBytes l i vs) k =
      if i ≤ k ∧ k < i + vs.length ∧ k < l.length then vs.getD (k - i) 0
      else byteAt l k := by
  intro vs
  induction vs with
  | nil =>
    intro l i k
    rw [if_neg (by simp; omega)]
    rfl
  | cons v vs ih =>
    intro l i k
    rw [setBytes, ih, setByte_length]
    by_cases h1 : i + 1 ≤ k ∧ k < i + 1 + vs.length ∧ k < l.length
    · rw [if_pos h1, if_pos (by simp; omega)]
      have h2 : k - i = (k - i - 1) + 1 := by omega
      rw [h2, List.getD_cons_succ]
      have h3 : k - (i + 1) = k - i - 1 := by omega
      rw [h3]
    · rw [if_neg h1]
      by_cases h2 : k = i ∧ i < l.length
      · rw [h2.1, byteAt_setByte_eq l i v h2.2,
          if_pos (by simp only [List.length_cons]; omega)]
        simp
      · rw [if_neg (by simp; omega)]
        rcases Nat.lt_or_ge i l.length with h3 | h3
        · exact byteAt_setByte_ne l i v k (by omega)
        · rcases Nat.lt_or_ge k l.length with h4 | h4
          · exact byteAt_setByte_ne l i v k (by omega)
          · rw [byteAt_oob _ _ (by rw [setByte_length]; omega),
              byteAt_oob _ _ h4]

theorem getBytes_length : ∀ (n : Nat) (l : List Nat) (i : Nat),
    (getBytes l i n).length = n := by
  intro n
  induction n with
  | zero => intro l i; rfl
  | succ m ih => intro l i; rw [getBytes]; simp [ih]

theorem getBytes_getD : ∀ (n : Nat) (l : List Nat) (i j : Nat), j < n →
    (getBytes l i n).getD j 0 = byteAt l (i + j) := by
  intro n
  induction n with
  | zero => intro l i j h; omega
  | succ m ih =>
    intro l i j h
    cases j with
    | zero => rfl
    | succ j' =>
      rw [getBytes, List.getD_cons_succ, ih l (i + 1) j' (by omega)]
      congr 1
      omega

theorem byteAt_moveBytes (l : List Nat) (di si c k : Nat) :
    byteAt (moveBytes l di si c) k =
      if di ≤ k ∧ k < di + c ∧ k < l.length then byteAt l (si + (k - di))
      else byteAt l k := by
  rw [moveBytes, byteAt_setBytes, getBytes_length]
  by_cases h : di ≤ k ∧ k < di + c ∧ k < l.length
  · rw [if_pos h, if_pos h, getBytes_getD c l si (k - di) (by omega)]
  · rw [if_neg h, if_neg h]

end LZAV

namespace LZAV

theorem moveBytes_length (l : List Nat) (di si c : Nat) :
    (moveBytes l di si c).length = l.length := by
  rw [moveBytes, setBytes_length]

theorem litCopy_length : ∀ (n : Nat) (src l : List Nat) (di si : Nat),
    (litCopy src l di si n).length = l.length := by
  intro n
  induction n with
  | zero => intro src l di si; rfl
  | succ m ih =>
    intro src l di si
    rw [litCopy, ih, setByte_length]

theorem byteAt_litCopy : ∀ (n : Nat) (src l : List Nat) (di si k : Nat),
    byteAt (litCopy src l di si n) k =
      if di ≤ k ∧ k < di + n ∧ k < l.length then byteAt src (si + (k - di))
      else byteAt l k := by
  intro n
  induction n with
  | zero =>
    intro src l di si k
    rw [if_neg (by omega)]
    rfl
  | succ m ih =>
    intro src l di si k
    rw [litCopy, ih, setByte_length]
    by_cases h1 : di + 1 ≤ k ∧ k < di + 1 + m ∧ k < l.length
    · rw [if_pos h1, if_pos (by omega)]
      have h3 : si + 1 + (k - (di + 1)) = si + (k - di) := by omega
      rw [h3]
    · rw [if_neg h1]
      by_cases h2 : k = di ∧ di < l.length
      · rw [h2.1, byteAt_setByte_eq l di _ h2.2, if_pos (by omega)]
        have h3 : di - di = 0 := by omega
        rw [h3, Nat.add_zero]
      · rw [if_neg (by omega)]
        rcases Nat.lt_or_ge k l.length with h4 | h4
        · exact byteAt_setByte_ne l di _ k (by omega)
        · rcases Nat.lt_or_ge di l.length with h5 | h5
          · exact byteAt_setByte_ne l di _ k (by omega)
          · rw [byteAt_oob _ _ (by rw [setByte_length]; omega),
              byteAt_oob _ _ h4]

theorem fwdCopy_length : ∀ (n : Nat) (l : List Nat) (di si : Nat),
    (fwdCopy l di si n).length = l.length := by
  intro n
  induction n with
  | zero => intro l di si; rfl
  | succ m ih =>
    intro l di si
    rw [fwdCopy, ih, setByte_length]

theorem byteAt_fwdCopy_no_overlap : ∀ (n : Nat) (l : List Nat)
    (di si k : Nat), si + n ≤ di →
    byteAt (fwdCopy l di si n) k =
      if di ≤ k ∧ k < di + n ∧ k < l.length then byteAt l (si + (k - di))
      else byteAt l k := by
  intro n
  induction n with
  | zero =>
    intro l di si k hno
    rw [if_neg (by omega)]
    rfl
  | succ m ih =>
    intro l di si k hno
    rw [fwdCopy, ih _ _ _ _ (by omega), setByte_length]
    have hrd : byteAt (setByte l di (byteAt l si)) si = byteAt l si :=
      byteAt_setByte_ne l di _ si (by omega)
    by_cases h1 : di + 1 ≤ k ∧ k < di + 1 + m ∧ k < l.length
    · rw [if_pos h1, if_pos (by omega)]
      have h3 : si + 1 + (k - (di + 1)) = si + (k - di) := by omega
      rw [h3]
      exact byteAt_setByte_ne l di _ _ (by omega)
    · rw [if_neg h1]
      by_cases h2 : k = di ∧ di < l.length
      · rw [h2.1, byteAt_setByte_eq l di _ h2.2, if_pos (by omega)]
        have h3 : di - di = 0 := by omega
        rw [h3, Nat.add_zero]
      · rw [if_neg (by omega)]
        rcases Nat.lt_or_ge k l.length with h4 | h4
        · exact byteAt_setByte_ne l di _ k (by omega)
        · rcases Nat.lt_or_ge di l.length with h5 | h5
          · exact byteAt_setByte_ne l di _ k (by omega)
          · rw [byteAt_oob _ _ (by rw [setByte_length]; omega),
              byteAt_oob _ _ h4]

end LZAV

namespace LZAV

/-- Buffers agree at every position below `n`. -/
def agreeBelow (n : Nat) (a b : List Nat) : Prop :=
  ∀ i, i < n → byteAt a i = byteAt b i

/-- Relation between the results of one copy phase of the two decoders:
same outcome kind, and on success equal lengths with agreement below `n`. -/
def CopyRel (n : Nat) : CopyRes → CopyRes → Prop
  | .ok a, .ok b => a.length = b.length ∧ agreeBelow n a b
  | .oob _, .oob _ => True
  | _, _ => False

theorem byteAt_moveBytes_lt (l : List Nat) (di si c k : Nat) (h : k < di) :
    byteAt (moveBytes l di si c) k = byteAt l k := by
  rw [byteAt_moveBytes, if_neg (by omega)]

theorem byteAt_move20chain (l : List Nat) (op d : Nat) (hd : d ≤ op) :
    ∀ i, op ≤ i → i < op + 20 → i < op + d → i < l.length →
    byteAt (moveBytes (moveBytes l op (op - d) 16) (op + 16)
      (op - d + 16) 4) i = byteAt l (i - d) := by
  intro i h1 h2 h3 h4
  by_cases h5 : i < op + 16
  · rw [byteAt_moveBytes_lt _ _ _ _ _ (by omega), byteAt_moveBytes,
      if_pos (by omega)]
    congr 1
    omega
  · rw [byteAt_moveBytes, moveBytes_length, if_pos (by omega)]
    have he : op - d + 16 + (i - (op + 16)) = i - d := by omega
    rw [he, byteAt_moveBytes_lt _ _ _ _ _ (by omega)]

theorem byteAt_move64chain (l : List Nat) (op d : Nat) (hd : d ≤ op) :
    ∀ i, op ≤ i → i < op + 64 → i < op + d → i < l.length →
    byteAt (moveBytes (moveBytes (moveBytes (moveBytes l op (op - d) 16)
      (op + 16) (op - d + 16) 16) (op + 32) (op - d + 32) 16) (op + 48)
      (op - d + 48) 16) i = byteAt l (i - d) := by
  intro i h1 h2 h3 h4
  have hidl : i - d < op := by omega
  by_cases c4 : op + 48 ≤ i
  · rw [byteAt_moveBytes, moveBytes_length, moveBytes_length,
      moveBytes_length, if_pos (by omega)]
    have he : op - d + 48 + (i - (op + 48)) = i - d := by omega
    rw [he, byteAt_moveBytes_lt _ _ _ _ _ (by omega),
      byteAt_moveBytes_lt _ _ _ _ _ (by omega),
      byteAt_moveBytes_lt _ _ _ _ _ (by omega)]
  by_cases c3 : op + 32 ≤ i
  · rw [byteAt_moveBytes_lt _ _ _ _ _ (by omega), byteAt_moveBytes,
      moveBytes_length, moveBytes_length, if_pos (by omega)]
    have he : op - d + 32 + (i - (op + 32)) = i - d := by omega
    rw [he, byteAt_moveBytes_lt _ _ _ _ _ (by omega),
      byteAt_moveBytes_lt _ _ _ _ _ (by omega)]
  by_cases c2 : op + 16 ≤ i
  · rw [byteAt_moveBytes_lt _ _ _ _ _ (by omega),
      byteAt_moveBytes_lt _ _ _ _ _ (by omega), byteAt_moveBytes,
      moveBytes_length, if_pos (by omega)]
    have he : op - d + 16 + (i - (op + 16)) = i - d := by omega
    rw [he, byteAt_moveBytes_lt _ _ _ _ _ (by omega)]
  · rw [byteAt_moveBytes_lt _ _ _ _ _ (by omega),
      byteAt_moveBytes_lt _ _ _ _ _ (by omega),
      byteAt_moveBytes_lt _ _ _ _ _ (by omega), byteAt_moveBytes,
      if_pos (by omega)]
    congr 1
    omega

end LZAV

namespace LZAV

theorem byteAt_move20chain_lt (l : List Nat) (op d i : Nat) (h : i < op) :
    byteAt (moveBytes (moveBytes l op (op - d) 16) (op + 16)
      (op - d + 16) 4) i = byteAt l i := by
  rw [byteAt_moveBytes_lt _ _ _ _ _ (by omega),
    byteAt_moveBytes_lt _ _ _ _ _ (by omega)]

theorem byteAt_move64chain_lt (l : List Nat) (op d i : Nat) (h : i < op) :
    byteAt (moveBytes (moveBytes (moveBytes (moveBytes l op (op - d) 16)
      (op + 16) (op - d + 16) 16) (op + 32) (op - d + 32) 16) (op + 48)
      (op - d + 48) 16) i = byteAt l i := by
  rw [byteAt_moveBytes_lt _ _ _ _ _ (by omega),
    byteAt_moveBytes_lt _ _ _ _ _ (by omega),
    byteAt_moveBytes_lt _ _ _ _ _ (by omega),
    byteAt_moveBytes_lt _ _ _ _ _ (by omega)]

theorem litCopyShort_rel (src : List Nat) (srcl dstl op ipd cc : Nat)
    (bF bS : List Nat) (hlen : bF.length = bS.length)
    (ha : agreeBelow op bF bS) (hcc : cc ≤ 16) :
    CopyRel (op + cc) (decLitCopyShort src srcl dstl op ipd cc bF)
      (decLitCopyShortSpec src srcl dstl op ipd cc bS) := by
  unfold decLitCopyShort decLitCopyShortSpec
  split
  · refine ⟨by rw [setBytes_length, litCopy_length]; exact hlen, ?_⟩
    intro i hi
    rw [byteAt_setBytes, getBytes_length, byteAt_litCopy]
    by_cases h1 : op ≤ i ∧ i < bF.length
    · rw [if_pos (by omega), if_pos (by omega)]
      rw [getBytes_getD _ _ _ _ (by omega)]
    · rw [if_neg (by omega), if_neg (by omega)]
      by_cases h2 : i < op
      · exact ha i h2
      · rw [byteAt_oob _ _ (by omega), byteAt_oob _ _ (by omega)]
  · split
    · trivial
    · refine ⟨by rw [litCopy_length, litCopy_length]; exact hlen, ?_⟩
      intro i hi
      rw [byteAt_litCopy, byteAt_litCopy]
      by_cases h1 : op ≤ i ∧ i < bF.length
      · rw [if_pos (by omega), if_pos (by omega)]
      · rw [if_neg (by omega), if_neg (by omega)]
        by_cases h2 : i < op
        · exact ha i h2
        · rw [byteAt_oob _ _ (by omega), byteAt_oob _ _ (by omega)]

theorem litCopyLong_rel (src : List Nat) (srcl dstl op ipd cc : Nat)
    (bF bS : List Nat) (hlen : bF.length = bS.length)
    (ha : agreeBelow op bF bS) :
    CopyRel (op + cc) (decLitCopyLong src srcl dstl op ipd cc bF)
      (decLitCopyLongSpec src srcl dstl op ipd cc bS) := by
  unfold decLitCopyLong decLitCopyLongSpec
  split
  · split
    · refine ⟨by rw [setBytes_length, litCopy_length]; exact hlen, ?_⟩
      intro i hi
      rw [byteAt_setBytes, getBytes_length, byteAt_litCopy]
      by_cases h1 : op ≤ i ∧ i < bF.length
      · rw [if_pos (by omega), if_pos (by omega)]
        rw [getBytes_getD _ _ _ _ (by omega)]
      · rw [if_neg (by omega), if_neg (by omega)]
        by_cases h2 : i < op
        · exact ha i h2
        · rw [byteAt_oob _ _ (by omega), byteAt_oob _ _ (by omega)]
    · split
      · trivial
      · refine ⟨?_, ?_⟩
        · rw [litCopy_length, setBytes_length, litCopy_length]; exact hlen
        intro i hi
        rw [byteAt_litCopy, setBytes_length, byteAt_setBytes,
          getBytes_length, byteAt_litCopy]
        by_cases h1 : op + 64 ≤ i ∧ i < bF.length
        · rw [if_pos (by omega), if_pos (by omega)]
          have he : ipd + 64 + (i - (op + 64)) = ipd + (i - op) := by omega
          rw [he]
        · by_cases h2 : op ≤ i ∧ i < bF.length
          · rw [if_neg (by omega), if_pos (by omega), if_pos (by omega)]
            rw [getBytes_getD _ _ _ _ (by omega)]
          · rw [if_neg (by omega), if_neg (by omega), if_neg (by omega)]
            by_cases h3 : i < op
            · exact ha i h3
            · rw [byteAt_oob _ _ (by omega), byteAt_oob _ _ (by omega)]
  · split
    · trivial
    · refine ⟨by rw [litCopy_length, litCopy_length]; exact hlen, ?_⟩
      intro i hi
      rw [byteAt_litCopy, byteAt_litCopy]
      by_cases h1 : op ≤ i ∧ i < bF.length
      · rw [if_pos (by omega), if_pos (by omega)]
      · rw [if_neg (by omega), if_neg (by omega)]
        by_cases h2 : i < op
        · exact ha i h2
        · rw [byteAt_oob _ _ (by omega), byteAt_oob _ _ (by omega)]

end LZAV

namespace LZAV

theorem refCopyShort_rel (dstl op d cc : Nat) (bF bS : List Nat)
    (hlen : bF.length = bS.length) (ha : agreeBelow op bF bS)
    (hdo : d ≤ op)
    (hsafe : (decRefCopyShortSpec dstl op d cc bS).2 = true) :
    CopyRel (op + cc) (decRefCopyShort dstl op d cc bF)
      (decRefCopyShortSpec dstl op d cc bS).1 := by
  unfold decRefCopyShort decRefCopyShortSpec at *
  by_cases hfast : op < dstl - 63
  · simp only [if_pos hfast] at hsafe ⊢
    try dsimp only at hsafe ⊢
    simp only [decide_eq_true_eq] at hsafe
    obtain ⟨hcd, h20⟩ := hsafe
    refine ⟨?_, ?_⟩
    · rw [moveBytes_length, moveBytes_length, fwdCopy_length]; exact hlen
    intro i hi
    rw [byteAt_fwdCopy_no_overlap _ _ _ _ _ (by omega)]
    by_cases h1 : op ≤ i ∧ i < bF.length
    · rw [if_pos (by omega)]
      rw [byteAt_move20chain bF op d hdo i (by omega) (by omega) (by omega)
        (by omega)]
      have he : op - d + (i - op) = i - d := by omega
      rw [he]
      exact ha (i - d) (by omega)
    · rw [if_neg (by omega)]
      by_cases h2 : i < op
      · rw [byteAt_move20chain_lt bF op d i h2]
        exact ha i h2
      · have hlc : (moveBytes (moveBytes bF op (op - d) 16) (op + 16) (op - d + 16) 4).length = bF.length := by rw [moveBytes_length, moveBytes_length]
        rw [byteAt_oob _ _ (by omega : (moveBytes (moveBytes bF op (op - d) 16) (op + 16) (op - d + 16) 4).length ≤ i), byteAt_oob _ _ (by omega)]
  · simp only [if_neg hfast] at hsafe ⊢
    by_cases hov : op + cc > dstl
    · simp only [if_pos hov] at hsafe ⊢
      try dsimp only
      trivial
    · simp only [if_neg hov] at hsafe ⊢
      try dsimp only at hsafe ⊢
      simp only [decide_eq_true_eq] at hsafe
      refine ⟨by rw [fwdCopy_length, fwdCopy_length]; exact hlen, ?_⟩
      intro i hi
      rw [byteAt_fwdCopy_no_overlap _ _ _ _ _ (by omega),
        byteAt_fwdCopy_no_overlap _ _ _ _ _ (by omega)]
      by_cases h1 : op ≤ i ∧ i < bF.length
      · rw [if_pos (by omega), if_pos (by omega)]
        exact ha _ (by omega)
      · rw [if_neg (by omega), if_neg (by omega)]
        by_cases h2 : i < op
        · exact ha i h2
        · rw [byteAt_oob _ _ (by omega), byteAt_oob _ _ (by omega)]

theorem refCopyLong_rel (dstl op d cc : Nat) (bF bS : List Nat)
    (hlen : bF.length = bS.length) (ha : agreeBelow op bF bS)
    (hdo : d ≤ op)
    (hsafe : (decRefCopyLongSpec dstl op d cc bS).2 = true) :
    CopyRel (op + cc) (decRefCopyLong dstl op d cc bF)
      (decRefCopyLongSpec dstl op d cc bS).1 := by
  unfold decRefCopyLong decRefCopyLongSpec at *
  by_cases hfast : op < dstl - 63
  · simp only [if_pos hfast] at hsafe ⊢
    by_cases h64 : cc ≤ 64
    · simp only [if_pos h64] at hsafe ⊢
      try dsimp only at hsafe ⊢
      simp only [decide_eq_true_eq] at hsafe
      refine ⟨?_, ?_⟩
      · rw [moveBytes_length, moveBytes_length, moveBytes_length,
          moveBytes_length, fwdCopy_length]
        exact hlen
      intro i hi
      rw [byteAt_fwdCopy_no_overlap _ _ _ _ _ (by omega)]
      by_cases h1 : op ≤ i ∧ i < bF.length
      · rw [if_pos (by omega)]
        rw [byteAt_move64chain bF op d hdo i (by omega) (by omega)
          (by omega) (by omega)]
        have he : op - d + (i - op) = i - d := by omega
        rw [he]
        exact ha (i - d) (by omega)
      · rw [if_neg (by omega)]
        by_cases h2 : i < op
        · rw [byteAt_move64chain_lt bF op d i h2]
          exact ha i h2
        · have hlc : (moveBytes (moveBytes (moveBytes (moveBytes bF op (op - d) 16) (op + 16) (op - d + 16) 16) (op + 32) (op - d + 32) 16) (op + 48) (op - d + 48) 16).length = bF.length := by rw [moveBytes_length, moveBytes_length, moveBytes_length, moveBytes_length]
          rw [byteAt_oob _ _ (by omega), byteAt_oob _ _ (by omega)]
    · simp only [if_neg h64] at hsafe ⊢
      by_cases hov : op + 64 + (cc - 64) > dstl
      · simp only [if_pos hov] at hsafe ⊢
        trivial
      · simp only [if_neg hov] at hsafe ⊢
        try dsimp only at hsafe ⊢
        simp only [decide_eq_true_eq] at hsafe
        refine ⟨?_, ?_⟩
        · rw [fwdCopy_length, moveBytes_length, moveBytes_length,
            moveBytes_length, moveBytes_length, fwdCopy_length]
          exact hlen
        intro i hi
        rw [byteAt_fwdCopy_no_overlap _ _ _ _ _ (by omega),
          byteAt_fwdCopy_no_overlap _ _ _ _ _ (by omega)]
        rw [moveBytes_length, moveBytes_length, moveBytes_length,
          moveBytes_length]
        by_cases h1 : op + 64 ≤ i ∧ i < bF.length
        · rw [if_pos (by omega), if_pos (by omega)]
          have he1 : op + 64 - d + (i - (op + 64)) = i - d := by omega
          have he2 : op - d + (i - op) = i - d := by omega
          rw [he1, he2, byteAt_move64chain_lt bF op d _ (by omega)]
          exact ha (i - d) (by omega)
        · by_cases h2 : op ≤ i ∧ i < bF.length
          · rw [if_neg (by omega), if_pos (by omega)]
            rw [byteAt_move64chain bF op d hdo i (by omega) (by omega)
              (by omega) (by omega)]
            have he : op - d + (i - op) = i - d := by omega
            rw [he]
            exact ha (i - d) (by omega)
          · rw [if_neg (by omega), if_neg (by omega)]
            by_cases h3 : i < op
            · rw [byteAt_move64chain_lt bF op d i h3]
              exact ha i h3
            · have hlc : (moveBytes (moveBytes (moveBytes (moveBytes bF op (op - d) 16) (op + 16) (op - d + 16) 16) (op + 32) (op - d + 32) 16) (op + 48) (op - d + 48) 16).length = bF.length := by rw [moveBytes_length, moveBytes_length, moveBytes_length, moveBytes_length]
              rw [byteAt_oob _ _ (by omega), byteAt_oob _ _ (by omega)]
  · simp only [if_neg hfast] at hsafe ⊢
    by_cases hov : op + cc > dstl
    · simp only [if_pos hov] at hsafe ⊢
      try dsimp only
      trivial
    · simp only [if_neg hov] at hsafe ⊢
      try dsimp only at hsafe ⊢
      simp only [decide_eq_true_eq] at hsafe
      refine ⟨by rw [fwdCopy_length, fwdCopy_length]; exact hlen, ?_⟩
      intro i hi
      rw [byteAt_fwdCopy_no_overlap _ _ _ _ _ (by omega),
        byteAt_fwdCopy_no_overlap _ _ _ _ _ (by omega)]
      by_cases h1 : op ≤ i ∧ i < bF.length
      · rw [if_pos (by omega), if_pos (by omega)]
        exact ha _ (by omega)
      · rw [if_neg (by omega), if_neg (by omega)]
        by_cases h2 : i < op
        · exact ha i h2
        · rw [byteAt_oob _ _ (by omega), byteAt_oob _ _ (by omega)]

end LZAV

namespace LZAV

theorem parse_lit_inv {src : List Nat} {srcl mref1 ip op cv csh bh : Nat}
    {short : Bool} {ipd cc ip' bh' cv' : Nat}
    (h : lzav_decompress_parse src srcl mref1 ip op cv csh bh =
      .lit short ipd cc ip' bh' cv') : short = true → cc ≤ 15 := by
  simp only [lzav_decompress_parse] at h
  repeat' split at h
  all_goals first
    | exact Parsed.noConfusion h
    | (cases h
       intro hs
       first
        | exact Nat.le_of_lt_succ (Nat.lt_succ_of_le Nat.and_le_right)
        | exact Bool.noConfusion hs)

theorem parse_ref_inv {src : List Nat} {srcl mref1 ip op cv csh bh : Nat}
    {short : Bool} {d cc ip' bh' cv' csh' : Nat}
    (h : lzav_decompress_parse src srcl mref1 ip op cv csh bh =
      .ref short d cc ip' bh' cv' csh') : d ≤ op := by
  simp only [lzav_decompress_parse] at h
  repeat' split at h
  all_goals first
    | exact Parsed.noConfusion h
    | (cases h; omega)

theorem spec_loop_flag_mono (src : List Nat) (srcl dstl mref1 : Nat) :
    ∀ fuel ip op cv csh bh bufS sf,
    (lzav_decompress_spec_loop src srcl dstl mref1 fuel ip op cv csh bh
      bufS sf).2 = true → sf = true := by
  intro fuel
  induction fuel with
  | zero =>
    intro ip op cv csh bh bufS sf h
    simpa [lzav_decompress_spec_loop] using h
  | succ n ih =>
    intro ip op cv csh bh bufS sf h
    simp only [lzav_decompress_spec_loop] at h
    repeat' split at h
    all_goals first
      | simpa using h
      | exact (Bool.and_eq_true_iff.mp (by simpa using h)).1
      | exact ih _ _ _ _ _ _ _ h
      | exact (Bool.and_eq_true_iff.mp (ih _ _ _ _ _ _ _ h)).1

end LZAV

namespace LZAV

/-- Relation between the two decoders' loop results: same error code on
failure; same cursor, equal lengths and agreement below the cursor on
normal exit. -/
def DecRel : DecRes → DecRes → Prop
  | .fail e _, .fail e' _ => e = e'
  | .done o a, .done o' b => o = o' ∧ a.length = b.length ∧ agreeBelow o a b
  | _, _ => False

theorem lzav_decompress_loop_rel (src : List Nat) (srcl dstl mref1 : Nat) :
    ∀ fuel ip op cv csh bh bufF bufS sf,
    bufF.length = bufS.length → agreeBelow op bufF bufS →
    (lzav_decompress_spec_loop src srcl dstl mref1 fuel ip op cv csh bh
      bufS sf).2 = true →
    DecRel
      (lzav_decompress_loop src srcl dstl mref1 fuel ip op cv csh bh bufF)
      (lzav_decompress_spec_loop src srcl dstl mref1 fuel ip op cv csh bh
        bufS sf).1 := by
  intro fuel
  induction fuel with
  | zero =>
    intro ip op cv csh bh bufF bufS sf hlen ha hs
    exact ⟨rfl, hlen, ha⟩
  | succ n ih =>
    intro ip op cv csh bh bufF bufS sf hlen ha hs
    simp only [lzav_decompress_loop, lzav_decompress_spec_loop] at hs ⊢
    by_cases hip : ip < srcl - 5
    case neg =>
      simp only [if_neg hip] at hs ⊢
      exact ⟨rfl, hlen, ha⟩
    case pos =>
    simp only [if_pos hip] at hs ⊢
    cases hp : lzav_decompress_parse src srcl mref1 ip op cv csh bh with
    | bad e =>
      simp only [hp] at hs ⊢
      exact rfl
    | lit short ipd cc ip' bh' cv' =>
      simp only [hp] at hs ⊢
      have hrel : CopyRel (op + cc)
          (if short then decLitCopyShort src srcl dstl op ipd cc bufF
            else decLitCopyLong src srcl dstl op ipd cc bufF)
          (if short then decLitCopyShortSpec src srcl dstl op ipd cc bufS
            else decLitCopyLongSpec src srcl dstl op ipd cc bufS) := by
        cases short
        · simpa using litCopyLong_rel src srcl dstl op ipd cc bufF bufS
            hlen ha
        · simpa using litCopyShort_rel src srcl dstl op ipd cc bufF bufS
            hlen ha (le_trans (parse_lit_inv hp rfl) (by omega))
      cases hF : (if short then decLitCopyShort src srcl dstl op ipd cc bufF
          else decLitCopyLong src srcl dstl op ipd cc bufF) with
      | oob bF' =>
        cases hS : (if short then
            decLitCopyShortSpec src srcl dstl op ipd cc bufS
            else decLitCopyLongSpec src srcl dstl op ipd cc bufS) with
        | oob bS' =>
          simp only [hF, hS] at hs ⊢
          exact rfl
        | ok bS' =>
          rw [hF, hS] at hrel
          exact absurd hrel (by simp [CopyRel])
      | ok bF' =>
        cases hS : (if short then
            decLitCopyShortSpec src srcl dstl op ipd cc bufS
            else decLitCopyLongSpec src srcl dstl op ipd cc bufS) with
        | oob bS' =>
          rw [hF, hS] at hrel
          exact absurd hrel (by simp [CopyRel])
        | ok bS' =>
          rw [hF, hS] at hrel
          obtain ⟨hlen', ha'⟩ := hrel
          simp only [hF, hS] at hs ⊢
          exact ih _ _ _ _ _ _ _ _ hlen' ha' hs
    | ref short d cc ip' bh' cv' csh' =>
      simp only [hp] at hs ⊢
      have hdo : d ≤ op := parse_ref_inv hp
      cases short
      · simp only [if_neg (by decide : ¬ (false = true))] at hs ⊢
        rcases hS : decRefCopyLongSpec dstl op d cc bufS with ⟨resS, sfl⟩
        simp only [hS] at hs ⊢
        cases resS with
        | oob bS' =>
          have hsfl : sfl = true := (Bool.and_eq_true_iff.mp hs).2
          have hrel := refCopyLong_rel dstl op d cc bufF bufS hlen ha hdo
            (by rw [hS]; exact hsfl)
          rw [hS] at hrel
          cases hF : decRefCopyLong dstl op d cc bufF with
          | oob bF' =>
            try simp only [hF]
            rfl
          | ok bF' =>
            rw [hF] at hrel
            exact absurd hrel (by simp [CopyRel])
        | ok bS' =>
          have hsfl : sfl = true := (Bool.and_eq_true_iff.mp
            (spec_loop_flag_mono src srcl dstl mref1 _ _ _ _ _ _ _ _ hs)).2
          have hrel := refCopyLong_rel dstl op d cc bufF bufS hlen ha hdo
            (by rw [hS]; exact hsfl)
          rw [hS] at hrel
          cases hF : decRefCopyLong dstl op d cc bufF with
          | oob bF' =>
            rw [hF] at hrel
            exact absurd hrel (by simp [CopyRel])
          | ok bF' =>
            rw [hF] at hrel
            obtain ⟨hlen', ha'⟩ := hrel
            try simp only [hF]
            exact ih _ _ _ _ _ _ _ _ hlen' ha' hs
      · simp only [if_pos rfl] at hs ⊢
        rcases hS : decRefCopyShortSpec dstl op d cc bufS with ⟨resS, sfl⟩
        simp only [hS] at hs ⊢
        cases resS with
        | oob bS' =>
          have hsfl : sfl = true := (Bool.and_eq_true_iff.mp hs).2
          have hrel := refCopyShort_rel dstl op d cc bufF bufS hlen ha hdo
            (by rw [hS]; exact hsfl)
          rw [hS] at hrel
          cases hF : decRefCopyShort dstl op d cc bufF with
          | oob bF' =>
            try simp only [hF]
            rfl
          | ok bF' =>
            rw [hF] at hrel
            exact absurd hrel (by simp [CopyRel])
        | ok bS' =>
          have hsfl : sfl = true := (Bool.and_eq_true_iff.mp
            (spec_loop_flag_mono src srcl dstl mref1 _ _ _ _ _ _ _ _ hs)).2
          have hrel := refCopyShort_rel dstl op d cc bufF bufS hlen ha hdo
            (by rw [hS]; exact hsfl)
          rw [hS] at hrel
          cases hF : decRefCopyShort dstl op d cc bufF with
          | oob bF' =>
            rw [hF] at hrel
            exact absurd hrel (by simp [CopyRel])
          | ok bF' =>
            rw [hF] at hrel
            obtain ⟨hlen', ha'⟩ := hrel
            try simp only [hF]
            exact ih _ _ _ _ _ _ _ _ hlen' ha' hs

end LZAV

namespace LZAV

theorem eq_of_agreeBelow (a b : List Nat) (hlen : a.length = b.length)
    (ha : agreeBelow a.length a b) : a = b := by
  apply List.ext_getElem hlen
  intro i h1 h2
  have := ha i h1
  rwa [byteAt, byteAt, List.getD_eq_getElem _ _ h1,
    List.getD_eq_getElem _ _ h2] at this

theorem decLitCopyShortSpec_ok_length (src : List Nat)
    (srcl dstl op ipd cc : Nat) (buf b : List Nat)
    (h : decLitCopyShortSpec src srcl dstl op ipd cc buf = .ok b) :
    b.length = buf.length := by
  unfold decLitCopyShortSpec at h
  repeat' split at h
  all_goals first
    | (cases h; exact litCopy_length cc src buf op ipd)
    | exact CopyRes.noConfusion h

theorem decLitCopyLongSpec_ok_length (src : List Nat)
    (srcl dstl op ipd cc : Nat) (buf b : List Nat)
    (h : decLitCopyLongSpec src srcl dstl op ipd cc buf = .ok b) :
    b.length = buf.length := by
  unfold decLitCopyLongSpec at h
  repeat' split at h
  all_goals first
    | (cases h; exact litCopy_length cc src buf op ipd)
    | exact CopyRes.noConfusion h

theorem decRefCopyShortSpec_ok_length (dstl op d cc : Nat)
    (buf b : List Nat) (sf : Bool)
    (h : decRefCopyShortSpec dstl op d cc buf = (.ok b, sf)) :
    b.length = buf.length := by
  unfold decRefCopyShortSpec at h
  repeat' split at h
  all_goals rw [Prod.mk.injEq] at h
  all_goals first
    | (cases h.1; exact fwdCopy_length cc buf op (op - d))
    | exact CopyRes.noConfusion h.1

theorem decRefCopyLongSpec_ok_length (dstl op d cc : Nat)
    (buf b : List Nat) (sf : Bool)
    (h : decRefCopyLongSpec dstl op d cc buf = (.ok b, sf)) :
    b.length = buf.length := by
  unfold decRefCopyLongSpec at h
  repeat' split at h
  all_goals rw [Prod.mk.injEq] at h
  all_goals first
    | (cases h.1; exact fwdCopy_length cc buf op (op - d))
    | exact CopyRes.noConfusion h.1

theorem spec_loop_done_length (src : List Nat) (srcl dstl mref1 : Nat) :
    ∀ fuel ip op cv csh bh buf sf o b,
    (lzav_decompress_spec_loop src srcl dstl mref1 fuel ip op cv csh bh buf
      sf).1 = .done o b → b.length = buf.length := by
  intro fuel
  induction fuel with
  | zero =>
    intro ip op cv csh bh buf sf o b h
    cases h
    rfl
  | succ n ih =>
    intro ip op cv csh bh buf sf o b h
    simp only [lzav_decompress_spec_loop] at h
    by_cases hip : ip < srcl - 5
    · simp only [if_pos hip] at h
      cases hp : lzav_decompress_parse src srcl mref1 ip op cv csh bh with
      | bad e =>
        rw [hp] at h
        dsimp only at h
        first
          | exact DecRes.noConfusion h
          | exact DecRes.noConfusion (congrArg Prod.fst h)
      | lit short ipd cc ip' bh' cv' =>
        rw [hp] at h
        dsimp only at h
        cases hc : (if short then
            decLitCopyShortSpec src srcl dstl op ipd cc buf
          else decLitCopyLongSpec src srcl dstl op ipd cc buf) with
        | oob bb =>
          rw [hc] at h
          dsimp only at h
          first
          | exact DecRes.noConfusion h
          | exact DecRes.noConfusion (congrArg Prod.fst h)
        | ok bb =>
          rw [hc] at h
          dsimp only at h
          have hbl : bb.length = buf.length := by
            cases short with
            | false =>
              simp only [if_neg (by decide : ¬ (false = true))] at hc
              exact decLitCopyLongSpec_ok_length _ _ _ _ _ _ _ _ hc
            | true =>
              simp only [if_pos rfl] at hc
              exact decLitCopyShortSpec_ok_length _ _ _ _ _ _ _ _ hc
          have := ih ip' (op + cc) cv' 2 bh' bb sf o b h
          omega
      | ref short d cc ip' bh' cv' csh' =>
        rw [hp] at h
        dsimp only at h
        rcases hc : (if short then decRefCopyShortSpec dstl op d cc buf
          else decRefCopyLongSpec dstl op d cc buf) with ⟨res, sfl⟩
        cases res with
        | oob bb =>
          rw [hc] at h
          dsimp only at h
          first
          | exact DecRes.noConfusion h
          | exact DecRes.noConfusion (congrArg Prod.fst h)
        | ok bb =>
          rw [hc] at h
          dsimp only at h
          have hbl : bb.length = buf.length := by
            cases short with
            | false =>
              simp only [if_neg (by decide : ¬ (false = true))] at hc
              exact decRefCopyLongSpec_ok_length _ _ _ _ _ _ _ hc
            | true =>
              simp only [if_pos rfl] at hc
              exact decRefCopyShortSpec_ok_length _ _ _ _ _ _ _ hc
          have := ih ip' (op + cc) cv' csh' bh' bb (sf && sfl) o b h
          omega
    · simp only [if_neg hip] at h
      cases h
      rfl

/-- C2 (amended): whenever every reference block of a stream satisfies
`cc ≤ d` (with, on the short fast path, `cc` within the 20 wide-copied
bytes) — the condition recorded by the byte-wise reference decoder's
flag — the source decoder with its wide fixed-size moves returns the
same value as the byte-wise forward-copy reference semantics, and on
success writes exactly the same bytes. -/
theorem lzav_decompress_bytewise_equiv (src : List Nat) (srcl dstl : Int)
    (dst0 : List Nat) (sn dn sd : Bool)
    (hsafe : (lzav_decompress_spec src srcl dstl dst0 sn dn sd).2.2 = true)
    (hd0 : dst0.length = dstl.toNat) :
    (lzav_decompress src srcl dstl dst0 sn dn sd).1 =
      (lzav_decompress_spec src srcl dstl dst0 sn dn sd).1 ∧
    (0 ≤ (lzav_decompress_spec src srcl dstl dst0 sn dn sd).1 →
      (lzav_decompress src srcl dstl dst0 sn dn sd).2 =
        (lzav_decompress_spec src srcl dstl dst0 sn dn sd).2.1) := by
  simp only [lzav_decompress, lzav_decompress_spec] at hsafe ⊢
  by_cases h1 : srcl < 0
  · simp [h1]
  simp only [if_neg h1] at hsafe ⊢
  by_cases h2 : srcl = 0
  · simp [h2]
  simp only [if_neg h2] at hsafe ⊢
  by_cases h3 : sn = true ∨ dn = true ∨ sd = true ∨ dstl ≤ 0
  · simp [h3]
  simp only [if_neg h3] at hsafe ⊢
  by_cases h4 : byteAt src 0 / 16 ≠ 1
  · simp [h4]
  simp only [if_neg h4] at hsafe ⊢
  rcases hS : lzav_decompress_spec_loop src srcl.toNat dstl.toNat
      (((byteAt src 0 &&& 15) + (2 ^ 64 - 1)) % 2 ^ 64) srcl.toNat 1 0 0 0
      (if 1 < srcl.toNat - 5 then byteAt src 1 else 0) dst0 true with
    ⟨resS, sfl⟩
  rw [hS] at hsafe
  have hsfl : sfl = true := by
    cases resS with
    | fail e b => exact hsafe
    | done o b =>
      dsimp only at hsafe
      by_cases hop : o ≠ dstl.toNat
      · rw [if_pos hop] at hsafe
        exact hsafe
      · rw [if_neg hop] at hsafe
        exact hsafe
  have hrel := lzav_decompress_loop_rel src srcl.toNat dstl.toNat
    (((byteAt src 0 &&& 15) + (2 ^ 64 - 1)) % 2 ^ 64) srcl.toNat 1 0 0 0
    (if 1 < srcl.toNat - 5 then byteAt src 1 else 0) dst0 dst0 true rfl
    (fun i hi => rfl) (by rw [hS]; exact hsfl)
  rw [hS] at hrel
  cases hF : lzav_decompress_loop src srcl.toNat dstl.toNat
      (((byteAt src 0 &&& 15) + (2 ^ 64 - 1)) % 2 ^ 64) srcl.toNat 1 0 0 0
      (if 1 < srcl.toNat - 5 then byteAt src 1 else 0) dst0 with
  | fail eF bF =>
    rw [hF] at hrel
    cases resS with
    | done o b => exact absurd hrel (by simp [DecRel])
    | fail eS bS =>
      have he : eF = eS := hrel
      subst he
      refine ⟨rfl, fun hge => ?_⟩
      rcases lzav_decompress_loop_fail_codes src srcl.toNat dstl.toNat
          (((byteAt src 0 &&& 15) + (2 ^ 64 - 1)) % 2 ^ 64) srcl.toNat 1 0 0 0
          (if 1 < srcl.toNat - 5 then byteAt src 1 else 0) dst0 eF bF hF
        with h | h | h
      all_goals rw [h] at hge
      all_goals dsimp only at hge
      all_goals exact absurd hge (by decide)
  | done oF bF =>
    rw [hF] at hrel
    cases resS with
    | fail eS bS => exact absurd hrel (by simp [DecRel])
    | done oS bS =>
      obtain ⟨ho, hlen, hagree⟩ := hrel
      subst ho
      dsimp only
      by_cases hop : oF ≠ dstl.toNat
      · rw [if_pos hop, if_pos hop]
        refine ⟨rfl, fun hge => ?_⟩
        dsimp only at hge
        exact absurd hge (by decide)
      · rw [if_neg hop, if_neg hop]
        simp only [not_not] at hop
        refine ⟨rfl, fun hge2 => ?_⟩
        refine eq_of_agreeBelow bF bS hlen ?_
        intro i hi
        refine hagree i ?_
        have hbl : bS.length = dst0.length :=
          spec_loop_done_length src srcl.toNat dstl.toNat
            (((byteAt src 0 &&& 15) + (2 ^ 64 - 1)) % 2 ^ 64) srcl.toNat 1 0 0
            0 (if 1 < srcl.toNat - 5 then byteAt src 1 else 0) dst0 true oF
            bS (by rw [hS])
        omega

/-- A crafted stream: one 8-byte literal run, then a type-1 reference
with offset `d = 8` and length `cc = 17 > d`, then trailing literals.
Both decoders accept it, but the source decoder's 20-byte wide move does
not observe its own earlier writes the way a byte-wise forward copy
does. -/
def overlapStream : List Nat :=
  [22, 72, 1, 2, 3, 4, 5, 6, 7, 8, 17, 0, 0, 42] ++ List.replicate 58 9

/-- C2 (counterexample to the original claim): on `overlapStream` the
decompressor succeeds (returns `dstl = 72`), yet the bytes it produces
for the reference block differ from the byte-wise forward copy
semantics: the claim that the wide fixed-size moves "never change the
decoded result relative to byte-wise semantics" for every accepted
stream is false. -/
theorem lzav_decompress_widemove_counterexample :
    (lzav_decompress overlapStream 72 72 (List.replicate 72 0) false false
      false).1 = 72 ∧
    (lzav_decompress_spec overlapStream 72 72 (List.replicate 72 0) false
      false false).1 = 72 ∧
    (lzav_decompress overlapStream 72 72 (List.replicate 72 0) false false
      false).2 ≠
      (lzav_decompress_spec overlapStream 72 72 (List.replicate 72 0) false
        false false).2.1 := by
  decide

/-- A well-formed compressed stream (the compressor's own output for a
repeating 8-byte pattern): every reference satisfies `cc ≤ d`. -/
def demoStream : List Nat :=
  [22, 14, 1, 2, 3, 4, 5, 6, 7, 8, 1, 2, 3, 4, 5, 6, 147, 0, 10, 7, 8, 1,
   2, 3, 4, 5, 6, 7, 8]

theorem lzav_decompress_bytewise_equiv_witness :
    (lzav_decompress_spec demoStream 29 32 (List.replicate 32 0) false false
      false).2.2 = true ∧
    (List.replicate 32 0).length = (32 : Int).toNat ∧
    ((lzav_decompress demoStream 29 32 (List.replicate 32 0) false false
        false).1 =
      (lzav_decompress_spec demoStream 29 32 (List.replicate 32 0) false
        false false).1 ∧
    (0 ≤ (lzav_decompress_spec demoStream 29 32 (List.replicate 32 0) false
        false false).1 →
      (lzav_decompress demoStream 29 32 (List.replicate 32 0) false false
        false).2 =
      (lzav_decompress_spec demoStream 29 32 (List.replicate 32 0) false
        false false).2.1)) :=
  ⟨by decide, by decide,
    lzav_decompress_bytewise_equiv demoStream 29 32 (List.replicate 32 0)
      false false false (by decide) (by decide)⟩

end LZAV

namespace LZAV

theorem lzav_match_len_le (a b : List Nat) :
    ∀ ml p1 p2, lzav_match_len a b p1 p2 ml ≤ ml := by
  intro ml
  induction ml with
  | zero => intro p1 p2; simp [lzav_match_len]
  | succ n ih =>
    intro p1 p2
    simp only [lzav_match_len]
    split
    · have := ih (p1 + 1) (p2 + 1)
      omega
    · omega

theorem writeLitChunks_len_le (src : List Nat) :
    ∀ fuel out ipa lc,
    (writeLitChunks src fuel out ipa lc).2.2 ≤ lc ∧
    (writeLitChunks src fuel out ipa lc).1.length ≤ out.length +
      (lc - (writeLitChunks src fuel out ipa lc).2.2) +
      3 * (lc - (writeLitChunks src fuel out ipa lc).2.2) /
        LZAV_LIT_LEN := by
  intro fuel
  induction fuel with
  | zero =>
    intro out ipa lc
    refine ⟨le_refl _, ?_⟩
    simp only [writeLitChunks, LZAV_LIT_LEN]
    omega
  | succ n ih =>
    intro out ipa lc
    simp only [writeLitChunks]
    split
    · rename_i hgt
      have hih := ih (out ++ 0 :: 255 :: 255 ::
        (src.drop ipa).take LZAV_LIT_LEN) (ipa + LZAV_LIT_LEN)
        (lc - LZAV_LIT_LEN)
      have htk : ((src.drop ipa).take LZAV_LIT_LEN).length ≤
          LZAV_LIT_LEN := by
        simpa using List.length_take_le _ _
      have hol : (out ++ 0 :: 255 :: 255 ::
          (src.drop ipa).take LZAV_LIT_LEN).length =
          out.length + 3 + ((src.drop ipa).take LZAV_LIT_LEN).length := by
        simp [List.length_append]
        omega
      rw [hol] at hih
      simp only [LZAV_LIT_LEN] at hgt hih htk ⊢
      omega
    · refine ⟨le_refl _, ?_⟩
      dsimp only
      simp only [LZAV_LIT_LEN]
      omega

theorem lzav_write_blk_lit_len_le (out : List Nat) (lc d : Nat)
    (src : List Nat) (ipa : Nat) (cbp : Option Nat) :
    (lzav_write_blk_lit out lc d src ipa cbp).1.length ≤
      out.length + lc + 3 * lc / LZAV_LIT_LEN + 2 := by
  simp only [lzav_write_blk_lit]
  have hc := writeLitChunks_len_le src lc out ipa lc
  rcases hr : writeLitChunks src lc out ipa lc with ⟨o1, ipa1, lc1⟩
  rw [hr] at hc
  dsimp only at hc ⊢
  obtain ⟨hlc1, hlen1⟩ := hc
  have htk : ∀ n : Nat, ((src.drop ipa1).take n).length ≤ n :=
    fun n => by simpa using List.length_take_le _ _
  split
  · split
    · rename_i h15
      have := htk lc1
      simp only [List.length_append, List.length_cons]
      simp only [LZAV_LIT_LEN] at hlen1 ⊢
      omega
    · split
      · rename_i h15 h270
        have := htk lc1
        simp only [List.length_append, List.length_cons]
        simp only [LZAV_LIT_LEN] at hlen1 h15 h270 ⊢
        omega
      · rename_i h15 h270
        have := htk lc1
        simp only [List.length_append, List.length_cons]
        simp only [LZAV_LIT_LEN] at hlen1 h15 h270 hlc1 ⊢
        omega
  · split
    · rw [setByte_length]
      simp only [LZAV_LIT_LEN] at hlen1 ⊢
      omega
    · simp only [LZAV_LIT_LEN] at hlen1 ⊢
      omega

theorem lzav_write_blk_ref_len_le (out : List Nat) (rc d : Nat)
    (hrc : LZAV_REF_MIN ≤ rc) :
    (lzav_write_blk_ref out rc d LZAV_REF_MIN).1.length ≤
      out.length + rc - 2 := by
  simp only [lzav_write_blk_ref, LZAV_REF_MIN] at hrc ⊢
  repeat' split
  all_goals simp only [le16w, le32w, List.length_append, List.length_cons,
    List.length_nil]
  all_goals omega

theorem lzav_write_blk_1_len_le (out : List Nat) (lc rc d : Nat)
    (src : List Nat) (ipa : Nat) (cbp : Option Nat)
    (hrc : LZAV_REF_MIN ≤ rc) :
    (lzav_write_blk_1 out lc rc d src ipa cbp LZAV_REF_MIN).1.length ≤
      out.length + lc + 3 * lc / LZAV_LIT_LEN + rc := by
  simp only [lzav_write_blk_1]
  have h1 := lzav_write_blk_lit_len_le out lc d src ipa cbp
  have h2 := lzav_write_blk_ref_len_le
    (lzav_write_blk_lit out lc d src ipa cbp).1 rc
    (lzav_write_blk_lit out lc d src ipa cbp).2.1 hrc
  simp only [LZAV_REF_MIN] at hrc
  omega

theorem lzav_match_emit_len_le (src : List Nat) (srcl ip ipa : Nat)
    (out : List Nat) (cbp : Option Nat) (wpo d : Nat)
    (hip : ip < srcl - 10) (hipa : ipa ≤ ip) (hd : 8 ≤ d) :
    ipa ≤ (lzav_match_emit src srcl ip ipa out cbp wpo d).2.2.1 ∧
    (lzav_match_emit src srcl ip ipa out cbp wpo d).2.2.1 ≤ srcl - 5 ∧
    (lzav_match_emit src srcl ip ipa out cbp wpo d).1.length ≤
      out.length +
      ((lzav_match_emit src srcl ip ipa out cbp wpo d).2.2.1 - ipa) +
      3 * ((lzav_match_emit src srcl ip ipa out cbp wpo d).2.2.1 - ipa) /
        LZAV_LIT_LEN := by
  simp only [lzav_match_emit]
  set ml0 := if d > LZAV_REF_LEN then LZAV_REF_LEN else d with hml0def
  set ml := if ip + ml0 > srcl - 5 then srcl - 5 - ip else ml0 with hmldef
  have hml06 : 6 ≤ ml0 := by
    rw [hml0def]
    simp only [LZAV_REF_LEN, LZAV_REF_MIN]
    split
    all_goals omega
  have hml6 : 6 ≤ ml := by
    rw [hmldef]
    split
    all_goals omega
  have hmlc : ip + ml ≤ srcl - 5 := by
    rw [hmldef]
    split
    all_goals omega
  by_cases hc : ip - ipa ≠ 0 ∧ ip - ipa < LZAV_REF_MIN
  case pos =>
    by_cases h6 : lzav_match_len src src (ip - (ip - ipa))
        (wpo - (ip - ipa)) ml ≥ LZAV_REF_MIN
    case pos =>
      simp only [if_pos hc, if_pos h6]
      try dsimp only
      have hrcml := lzav_match_len_le src src ml (ip - (ip - ipa))
        (wpo - (ip - ipa))
      have hblk := lzav_write_blk_1_len_le out 0 (lzav_match_len src src
        (ip - (ip - ipa)) (wpo - (ip - ipa)) ml) d src ipa cbp h6
      simp only [LZAV_REF_MIN] at h6 hc hblk ⊢
      simp only [LZAV_LIT_LEN] at hblk ⊢
      omega
    case neg =>
      simp only [if_pos hc, if_neg h6]
      try dsimp only
      have hrcml := lzav_match_len_le src src (ml - LZAV_REF_MIN)
        (ip + LZAV_REF_MIN) (wpo + LZAV_REF_MIN)
      have hblk := lzav_write_blk_1_len_le out (ip - ipa) (LZAV_REF_MIN +
        lzav_match_len src src (ip + LZAV_REF_MIN) (wpo + LZAV_REF_MIN)
          (ml - LZAV_REF_MIN)) d src ipa cbp (Nat.le_add_right _ _)
      try dsimp only
      simp only [LZAV_REF_MIN] at hrcml hblk ⊢
      simp only [LZAV_LIT_LEN] at hblk ⊢
      omega
  case neg =>
    simp only [if_neg hc]
    try dsimp only
    have hrcml := lzav_match_len_le src src (ml - LZAV_REF_MIN)
      (ip + LZAV_REF_MIN) (wpo + LZAV_REF_MIN)
    have hblk := lzav_write_blk_1_len_le out (ip - ipa) (LZAV_REF_MIN +
      lzav_match_len src src (ip + LZAV_REF_MIN) (wpo + LZAV_REF_MIN)
        (ml - LZAV_REF_MIN)) d src ipa cbp (Nat.le_add_right _ _)
    try dsimp only
    simp only [LZAV_REF_MIN] at hrcml hblk ⊢
    simp only [LZAV_LIT_LEN] at hblk ⊢
    omega

theorem writeFinLoop_small (src : List Nat) (fuel : Nat) (out : List Nat)
    (ipa lc : Nat) (h : lc ≤ 15) :
    writeFinLoop src fuel out ipa lc = (out, ipa, lc) := by
  cases fuel with
  | zero => rfl
  | succ n => simp only [writeFinLoop, if_neg (by omega : ¬ lc > 15)]

theorem writeFinLoop_len_le (src : List Nat) :
    ∀ fuel out ipa lc,
    (writeFinLoop src fuel out ipa lc).2.2 ≤ lc ∧
    (writeFinLoop src fuel out ipa lc).1.length ≤ out.length +
      (lc - (writeFinLoop src fuel out ipa lc).2.2) +
      3 * (lc - (writeFinLoop src fuel out ipa lc).2.2) / LZAV_LIT_LEN +
      2 := by
  intro fuel
  induction fuel with
  | zero =>
    intro out ipa lc
    refine ⟨le_refl _, ?_⟩
    simp only [writeFinLoop, LZAV_LIT_LEN]
    omega
  | succ n ih =>
    intro out ipa lc
    simp only [writeFinLoop]
    split
    · rename_i hgt
      set wc0 := lc - LZAV_LIT_FIN with hwc0
      set wc := if wc0 < 1 + 15 then wc0
        else if wc0 > LZAV_LIT_LEN then LZAV_LIT_LEN else wc0 with hwc
      set hdr : List Nat := if wc < 1 + 15 then [wc]
        else if wc < 1 + 15 + 255 then [0, wc - 1 - 15]
        else [0, 255, wc - 1 - 15 - 255] with hhdr
      have htk : ((src.drop ipa).take wc).length ≤ wc := by
        simpa using List.length_take_le _ _
      have hhl : hdr.length ≤ 3 ∧ (hdr.length ≤ 2 ∨ 271 ≤ wc) := by
        rw [hhdr]
        repeat' split
        all_goals simp only [List.length_cons, List.length_nil]
        all_goals omega
      have hol : (out ++ hdr ++ (src.drop ipa).take wc).length =
          out.length + hdr.length + ((src.drop ipa).take wc).length := by
        simp only [List.length_append]
        try omega
      by_cases hbig : wc0 > LZAV_LIT_LEN
      case pos =>
        have hwceq : wc = LZAV_LIT_LEN := by
          rw [hwc]
          simp only [LZAV_LIT_LEN, LZAV_LIT_FIN] at hbig ⊢
          repeat' split
          all_goals omega
        have hih := ih (out ++ hdr ++ (src.drop ipa).take wc) (ipa + wc)
          (lc - wc)
        rw [hol] at hih
        simp only [LZAV_LIT_LEN, LZAV_LIT_FIN] at hgt hih htk hhl ⊢
        simp only [LZAV_LIT_LEN, LZAV_LIT_FIN] at hbig hwceq
        omega
      case neg =>
        have hwceq : wc = wc0 := by
          rw [hwc]
          simp only [LZAV_LIT_LEN, LZAV_LIT_FIN] at hbig ⊢
          repeat' split
          all_goals omega
        have hlc5 : lc - wc ≤ 15 := by
          simp only [LZAV_LIT_FIN] at hwc0
          omega
        rw [writeFinLoop_small src n _ _ _ hlc5]
        try dsimp only
        simp only [LZAV_LIT_LEN, LZAV_LIT_FIN] at hgt htk hhl ⊢
        simp only [LZAV_LIT_LEN, LZAV_LIT_FIN] at hbig hwceq hwc0
        rw [hol]
        omega
    · refine ⟨le_refl _, ?_⟩
      try dsimp only
      simp only [LZAV_LIT_LEN]
      omega

theorem lzav_write_fin_1_len_le (out : List Nat) (lc : Nat)
    (src : List Nat) (ipa : Nat) :
    (lzav_write_fin_1 out lc src ipa).length ≤
      out.length + lc + 3 * lc / LZAV_LIT_LEN + 3 := by
  simp only [lzav_write_fin_1]
  have hc := writeFinLoop_len_le src lc out ipa lc
  rcases hr : writeFinLoop src lc out ipa lc with ⟨o1, ipa1, lc1⟩
  rw [hr] at hc
  dsimp only at hc ⊢
  obtain ⟨hlc1, hlen1⟩ := hc
  have htk : ((src.drop ipa1).take lc1).length ≤ lc1 := by
    simpa using List.length_take_le _ _
  simp only [List.length_append, List.length_cons]
  simp only [LZAV_LIT_LEN] at hlen1 ⊢
  omega

theorem lzav_skip_ge (ip ipa ipo : Nat) (mavg rndb : Int) :
    ip ≤ (lzav_skip ip ipa ipo mavg rndb).1 := by
  simp only [lzav_skip]
  repeat' split
  all_goals try dsimp only
  all_goals omega

theorem lzav_compress_loop_len_le (src : List Nat)
    (srcl htcap hmask : Nat) :
    ∀ fuel ip ipa out cbp ht mavg rndb trace,
    ipa ≤ ip → ipa ≤ srcl →
    out.length ≤ 1 + ipa + 3 * ipa / LZAV_LIT_LEN →
    (lzav_compress_loop src srcl htcap hmask fuel ip ipa out cbp ht mavg
      rndb trace).2.1 ≤ srcl ∧
    (lzav_compress_loop src srcl htcap hmask fuel ip ipa out cbp ht mavg
      rndb trace).1.length ≤ 1 +
      (lzav_compress_loop src srcl htcap hmask fuel ip ipa out cbp ht mavg
        rndb trace).2.1 +
      3 * (lzav_compress_loop src srcl htcap hmask fuel ip ipa out cbp ht
        mavg rndb trace).2.1 / LZAV_LIT_LEN := by
  intro fuel
  induction fuel with
  | zero =>
    intro ip ipa out cbp ht mavg rndb trace h1 h2 h3
    exact ⟨h2, h3⟩
  | succ n ih =>
    intro ip ipa out cbp ht mavg rndb trace h1 h2 h3
    simp only [lzav_compress_loop]
    by_cases hip : ip < srcl - 10
    case neg =>
      simp only [if_neg hip]
      exact ⟨h2, h3⟩
    case pos =>
      simp only [if_pos hip]
      rcases hf : lzav_ht_find src ht ((lzav_hash (le32 src ip)
          (le16 src (ip + 4)) &&& hmask) / 16) (le32 src ip)
          (le16 src (ip + 4)) ip with ⟨fnd, ht2⟩
      cases fnd with
      | none =>
        try dsimp only
        have hsk := lzav_skip_ge ip ipa ip mavg rndb
        exact ih _ ipa out cbp ht2 _ _ trace (by omega) h2 h3
      | some wpo =>
        try dsimp only
        by_cases hd : (ip % 2 ^ 32 + (2 ^ 32 - wpo % 2 ^ 32)) % 2 ^ 32 ≤ 7
          ∨ (ip % 2 ^ 32 + (2 ^ 32 - wpo % 2 ^ 32)) % 2 ^ 32 ≥
            LZAV_WIN_LEN
        case pos =>
          simp only [if_pos hd]
          exact ih _ ipa out cbp _ mavg rndb trace (by omega) h2 h3
        case neg =>
          simp only [if_neg hd]
          have hd8 : 8 ≤ (ip % 2 ^ 32 + (2 ^ 32 - wpo % 2 ^ 32)) % 2 ^ 32 :=
            by
            simp only [LZAV_WIN_LEN] at hd
            omega
          have hme := lzav_match_emit_len_le src srcl ip ipa out cbp wpo
            ((ip % 2 ^ 32 + (2 ^ 32 - wpo % 2 ^ 32)) % 2 ^ 32) hip h1 hd8
          obtain ⟨hm1, hm2, hm3⟩ := hme
          refine ih _ _ _ _ _ _ _ _ (le_refl _) (by omega) ?_
          simp only [LZAV_LIT_LEN] at hm3 h3 ⊢
          omega

theorem lzav_compress_main_le (src : List Nat) (htcap hmask : Nat)
    (ht : List HTEnt) (h6 : 6 ≤ src.length) :
    ((lzav_write_fin_1
      (lzav_compress_loop src src.length htcap hmask src.length
        LZAV_REF_MIN 0 [LZAV_FMT_CUR * 16 ||| LZAV_REF_MIN] none ht
        (100 * 2 ^ 22) 0 []).1
      (src.length -
        (lzav_compress_loop src src.length htcap hmask src.length
          LZAV_REF_MIN 0 [LZAV_FMT_CUR * 16 ||| LZAV_REF_MIN] none ht
          (100 * 2 ^ 22) 0 []).2.1) src
      (lzav_compress_loop src src.length htcap hmask src.length
        LZAV_REF_MIN 0 [LZAV_FMT_CUR * 16 ||| LZAV_REF_MIN] none ht
        (100 * 2 ^ 22) 0 []).2.1).length : Int) ≤
    lzav_compress_bound src.length := by
  have hl := lzav_compress_loop_len_le src src.length htcap hmask
    src.length LZAV_REF_MIN 0 [LZAV_FMT_CUR * 16 ||| LZAV_REF_MIN] none ht
    (100 * 2 ^ 22) 0 [] (by simp [LZAV_REF_MIN]) (by omega)
    (by simp [LZAV_LIT_LEN])
  have hfin := lzav_write_fin_1_len_le
    (lzav_compress_loop src src.length htcap hmask src.length
      LZAV_REF_MIN 0 [LZAV_FMT_CUR * 16 ||| LZAV_REF_MIN] none ht
      (100 * 2 ^ 22) 0 []).1
    (src.length -
      (lzav_compress_loop src src.length htcap hmask src.length
        LZAV_REF_MIN 0 [LZAV_FMT_CUR * 16 ||| LZAV_REF_MIN] none ht
        (100 * 2 ^ 22) 0 []).2.1) src
    (lzav_compress_loop src src.length htcap hmask src.length
      LZAV_REF_MIN 0 [LZAV_FMT_CUR * 16 ||| LZAV_REF_MIN] none ht
      (100 * 2 ^ 22) 0 []).2.1
  simp only [lzav_compress_bound]
  rw [if_neg (by omega : ¬ ((src.length : Int) ≤ 0)),
    (by norm_num [LZAV_LIT_LEN] : ((LZAV_LIT_LEN : Nat) : Int) = 526)]
  obtain ⟨ha, hb⟩ := hl
  simp only [LZAV_LIT_LEN] at hb hfin
  omega

/-- C3: bound safety — for a non-empty source whose destination capacity
is at least `lzav_compress_bound`, the value returned by `lzav_compress`
(the encoded length on the successful path, 0 on the parameter-failure
path) never exceeds `lzav_compress_bound` of the source length. -/
theorem lzav_compress_bound_safety (src : List Nat) (dstl : Int)
    (sn dn sd ext : Bool) (extBufl : Int) (jE jH jS : List HTEnt)
    (h1 : 1 ≤ src.length)
    (hd : lzav_compress_bound src.length ≤ dstl) :
    (lzav_compress src dstl sn dn sd ext extBufl jE jH jS).1 ≤
      lzav_compress_bound src.length := by
  simp only [lzav_compress, lzav_compress_full]
  split
  · try dsimp only
    simp only [lzav_compress_bound]
    rw [if_neg (by omega : ¬ ((src.length : Int) ≤ 0)),
      (by norm_num [LZAV_LIT_LEN] : ((LZAV_LIT_LEN : Nat) : Int) = 526)]
    omega
  split
  · try dsimp only
    simp only [lzav_compress_bound, LZAV_LIT_FIN]
    rw [if_neg (by omega : ¬ ((src.length : Int) ≤ 0)),
      (by norm_num [LZAV_LIT_LEN] : ((LZAV_LIT_LEN : Nat) : Int) = 526)]
    omega
  · rename_i hf hs
    try dsimp only
    exact lzav_compress_main_le src _ _ _
      (by simp only [LZAV_LIT_FIN] at hs; omega)

theorem lzav_compress_bound_safety_witness :
    1 ≤ ([65] : List Nat).length ∧
    lzav_compress_bound ([65] : List Nat).length ≤ 9 ∧
    (lzav_compress [65] 9 false false false false 0 [] [] []).1 ≤
      lzav_compress_bound ([65] : List Nat).length :=
  ⟨by decide, by decide,
    lzav_compress_bound_safety [65] 9 false false false false 0 [] [] []
      (by decide) (by decide)⟩

end LZAV

namespace LZAV

theorem lzav_match_emit_rc_bounds (src : List Nat) (srcl ip ipa : Nat)
    (out : List Nat) (cbp : Option Nat) (wpo d : Nat)
    (hip : ip < srcl - 10) (hd : 8 ≤ d) :
    LZAV_REF_MIN ≤ (lzav_match_emit src srcl ip ipa out cbp wpo d).2.2.2.2 ∧
    (lzav_match_emit src srcl ip ipa out cbp wpo d).2.2.2.2 ≤ d ∧
    (lzav_match_emit src srcl ip ipa out cbp wpo d).2.2.2.2 ≤
      LZAV_REF_LEN := by
  simp only [lzav_match_emit]
  set ml0 := if d > LZAV_REF_LEN then LZAV_REF_LEN else d with hml0def
  set ml := if ip + ml0 > srcl - 5 then srcl - 5 - ip else ml0 with hmldef
  have hml0b : ml0 ≤ d ∧ ml0 ≤ LZAV_REF_LEN := by
    rw [hml0def]
    simp only [LZAV_REF_LEN, LZAV_REF_MIN]
    split
    all_goals omega
  have hmlb : ml ≤ ml0 := by
    rw [hmldef]
    split
    all_goals omega
  by_cases hc : ip - ipa ≠ 0 ∧ ip - ipa < LZAV_REF_MIN
  case pos =>
    by_cases h6 : lzav_match_len src src (ip - (ip - ipa))
        (wpo - (ip - ipa)) ml ≥ LZAV_REF_MIN
    case pos =>
      simp only [if_pos hc, if_pos h6]
      try dsimp only
      have hrcml := lzav_match_len_le src src ml (ip - (ip - ipa))
        (wpo - (ip - ipa))
      simp only [LZAV_REF_MIN, LZAV_REF_LEN] at h6 hml0b ⊢
      omega
    case neg =>
      simp only [if_pos hc, if_neg h6]
      try dsimp only
      have hrcml := lzav_match_len_le src src (ml - LZAV_REF_MIN)
        (ip + LZAV_REF_MIN) (wpo + LZAV_REF_MIN)
      have hml6 : 6 ≤ ml := by
        rw [hmldef, hml0def]
        simp only [LZAV_REF_LEN, LZAV_REF_MIN]
        repeat' split
        all_goals omega
      simp only [LZAV_REF_MIN, LZAV_REF_LEN] at hrcml hml0b hml6 ⊢
      omega
  case neg =>
    simp only [if_neg hc]
    try dsimp only
    have hrcml := lzav_match_len_le src src (ml - LZAV_REF_MIN)
      (ip + LZAV_REF_MIN) (wpo + LZAV_REF_MIN)
    have hml6 : 6 ≤ ml := by
      rw [hmldef, hml0def]
      simp only [LZAV_REF_LEN, LZAV_REF_MIN]
      repeat' split
      all_goals omega
    simp only [LZAV_REF_MIN, LZAV_REF_LEN] at hrcml hml0b hml6 ⊢
    omega

theorem lzav_compress_loop_trace_inv (src : List Nat)
    (srcl htcap hmask : Nat) :
    ∀ fuel ip ipa out cbp ht mavg rndb trace,
    (∀ e ∈ trace, 8 ≤ e.2.2 ∧ e.2.2 < LZAV_WIN_LEN ∧
      LZAV_REF_MIN ≤ e.2.1 ∧ e.2.1 ≤ e.2.2 ∧ e.2.1 ≤ LZAV_REF_LEN) →
    ∀ e ∈ (lzav_compress_loop src srcl htcap hmask fuel ip ipa out cbp ht
      mavg rndb trace).2.2,
      8 ≤ e.2.2 ∧ e.2.2 < LZAV_WIN_LEN ∧ LZAV_REF_MIN ≤ e.2.1 ∧
      e.2.1 ≤ e.2.2 ∧ e.2.1 ≤ LZAV_REF_LEN := by
  intro fuel
  induction fuel with
  | zero => intro ip ipa out cbp ht mavg rndb trace hin; exact hin
  | succ n ih =>
    intro ip ipa out cbp ht mavg rndb trace hin
    simp only [lzav_compress_loop]
    by_cases hip : ip < srcl - 10
    case neg =>
      simp only [if_neg hip]
      exact hin
    case pos =>
      simp only [if_pos hip]
      rcases hf : lzav_ht_find src ht ((lzav_hash (le32 src ip)
          (le16 src (ip + 4)) &&& hmask) / 16) (le32 src ip)
          (le16 src (ip + 4)) ip with ⟨fnd, ht2⟩
      cases fnd with
      | none =>
        try dsimp only
        exact ih _ ipa out cbp ht2 _ _ trace hin
      | some wpo =>
        try dsimp only
        by_cases hd : (ip % 2 ^ 32 + (2 ^ 32 - wpo % 2 ^ 32)) % 2 ^ 32 ≤ 7
          ∨ (ip % 2 ^ 32 + (2 ^ 32 - wpo % 2 ^ 32)) % 2 ^ 32 ≥
            LZAV_WIN_LEN
        case pos =>
          simp only [if_pos hd]
          exact ih _ ipa out cbp _ mavg rndb trace hin
        case neg =>
          simp only [if_neg hd]
          have hd8 : 8 ≤ (ip % 2 ^ 32 + (2 ^ 32 - wpo % 2 ^ 32)) % 2 ^ 32 ∧
              (ip % 2 ^ 32 + (2 ^ 32 - wpo % 2 ^ 32)) % 2 ^ 32 <
                LZAV_WIN_LEN := by
            simp only [LZAV_WIN_LEN] at hd ⊢
            omega
          have hrc := lzav_match_emit_rc_bounds src srcl ip ipa out cbp wpo
            ((ip % 2 ^ 32 + (2 ^ 32 - wpo % 2 ^ 32)) % 2 ^ 32) hip hd8.1
          refine ih _ _ _ _ _ _ _ _ ?_
          intro e he
          rcases List.mem_append.mp he with h | h
          · exact hin e h
          · rcases List.mem_singleton.mp h with rfl
            exact ⟨hd8.1, hd8.2, hrc.1, hrc.2.1, hrc.2.2⟩

/-- C8: encoder reference invariant — every reference block `(lc, rc, d)`
emitted during compression has an offset `d` with `8 ≤ d < LZAV_WIN_LEN`
and a reference length `rc` with `LZAV_REF_MIN ≤ rc ≤ min d LZAV_REF_LEN`;
in particular `d ≥ rc`, so no emitted copy overlaps not-yet-written
output. -/
theorem lzav_compress_ref_invariant (src : List Nat) (dstl : Int)
    (sn dn sd ext : Bool) (extBufl : Int) (jE jH jS : List HTEnt)
    (lc rc d : Nat)
    (hmem : (lc, rc, d) ∈ (lzav_compress_full src dstl sn dn sd ext extBufl
      jE jH jS).2.2) :
    8 ≤ d ∧ d < LZAV_WIN_LEN ∧ LZAV_REF_MIN ≤ rc ∧
    rc ≤ min d LZAV_REF_LEN := by
  have hmain : ∀ e ∈ (lzav_compress_full src dstl sn dn sd ext extBufl
      jE jH jS).2.2, 8 ≤ e.2.2 ∧ e.2.2 < LZAV_WIN_LEN ∧
      LZAV_REF_MIN ≤ e.2.1 ∧ e.2.1 ≤ e.2.2 ∧ e.2.1 ≤ LZAV_REF_LEN := by
    simp only [lzav_compress_full]
    split
    · intro e he
      exact absurd he (List.not_mem_nil e)
    split
    · intro e he
      exact absurd he (List.not_mem_nil e)
    · try dsimp only
      exact lzav_compress_loop_trace_inv src src.length _ _ src.length
        LZAV_REF_MIN 0 _ none _ (100 * 2 ^ 22) 0 []
        (fun e he => absurd he (List.not_mem_nil e))
  have := hmain (lc, rc, d) hmem
  exact ⟨this.1, this.2.1, this.2.2.1, le_min this.2.2.2.1 this.2.2.2.2⟩

theorem lzav_compress_ref_invariant_witness :
    ((14, 8, 8) ∈ (lzav_compress_full
      ([1,2,3,4,5,6,7,8,1,2,3,4,5,6,7,8,1,2,3,4,5,6,7,8,1,2,3,4,5,6,7,8] :
        List Nat) 40 false false false false 0 [] []
      (List.replicate 256 ⟨0, 0, 0, 0⟩)).2.2) ∧
    (8 ≤ 8 ∧ 8 < LZAV_WIN_LEN ∧ LZAV_REF_MIN ≤ 8 ∧
      8 ≤ min 8 LZAV_REF_LEN) :=
  ⟨by decide,
    lzav_compress_ref_invariant
      [1,2,3,4,5,6,7,8,1,2,3,4,5,6,7,8,1,2,3,4,5,6,7,8,1,2,3,4,5,6,7,8] 40
      false false false false 0 [] [] (List.replicate 256 ⟨0, 0, 0, 0⟩)
      14 8 8 (by decide)⟩

end LZAV
